import Mathlib

/-!
Verification development for the Prusti encoding engine
(prusti-viper/src/encoder/encoder.rs).

The `Encoder` struct and its methods are shallowly embedded: each
`RefCell<HashMap<..>>` cache becomes an association list inside an explicit
state record `St`, and every public method of `Encoder` becomes a function
threading that state.  Collaborators that live outside encoder.rs
(TypeEncoder, ProcedureEncoder, PureFunctionEncoder, BuiltinEncoder,
the rustc environment, borrows::compute_procedure_contract, the
specification table) are supplied through an `Env` record of pure
functions; the places where the spec rather than the source dictates their
behaviour are marked `Modelled from the spec:` in the doc comments.

Instrumentation: the state carries a `log` of computation events, one event
appended exactly when the underlying computation of a cached artifact runs,
so compute-once properties can be stated as facts about the log.
-/

namespace Enc

/-- Procedure / closure identifier (rustc `DefId`, opaque and stable). -/
abbrev ProcId := Nat

/-- `syntax::ast::IntTy`. -/
inductive IntTy
  | i8 | i16 | i32 | i64 | i128 | isize
deriving DecidableEq

/-- `syntax::ast::UintTy`. -/
inductive UintTy
  | u8 | u16 | u32 | u64 | u128 | usize
deriving DecidableEq

/-- `ty::TypeVariants` — the structural part of a rustc type (`ty.sty`).
Non-scalar types are abstracted as `tyAdt n` with a structural identity. -/
inductive Sty
  | tyBool
  | tyChar
  | tyInt (t : IntTy)
  | tyUint (t : UintTy)
  | tyAdt (n : Nat)
deriving DecidableEq

/-- `vir::Type`. -/
inductive VirType
  | int
  | bool
  | typedRef (name : String)
deriving DecidableEq

/-- `vir::Field`. -/
structure Field where
  name : String
  typ : VirType
deriving DecidableEq

/-- `vir::Expr`, restricted to the literals produced by the constant codec
plus an opaque body form for pure-function bodies. -/
inductive Expr
  | intLit (i : Int)
  | boolLit (b : Bool)
  | body (tag : Nat)
deriving DecidableEq

/-- `vir::Predicate`: a named predicate whose body references the predicate
names of the sub-types it unfolds to. -/
structure Predicate where
  name : String
  refs : List String
deriving DecidableEq

/-- `vir::BodylessMethod` (builtin methods). -/
structure BodylessMethod where
  name : String
deriving DecidableEq

/-- `vir::Function` (pure user functions and builtin functions). -/
structure Function where
  name : String
  hasBody : Bool
deriving DecidableEq

/-- `vir::CfgMethod` (encoded procedures). -/
structure CfgMethod where
  name : String
deriving DecidableEq

/-- An assertion inside a contract, kept opaque. -/
abbrev Assertion := Nat

/-- `ProcedureContractMirDef` / `ProcedureContract`: a pair of ordered
assertion sequences. -/
structure Contract where
  pre : List Assertion
  post : List Assertion
deriving DecidableEq

/-- `prusti_interface::specifications::SpecificationSet`, restricted to the
`Procedure` variant used by `get_procedure_contract`. -/
inductive SpecificationSet
  | procedure (pre : List Assertion) (post : List Assertion)
deriving DecidableEq

/-- One closure instantiation record: (enclosing procedure, basic block,
statement index, operands). -/
abbrev CInst := Nat × Nat × Nat × List Nat

/-- A method of the final Viper program: either a builtin bodyless method or
an encoded procedure (both are `Box<ToViper<Method>>` in the source). -/
inductive ViperMethod
  | builtin (m : BodylessMethod)
  | user (m : CfgMethod)
deriving DecidableEq

/-- Computation events: one is logged exactly when the underlying
computation behind a cache (or, for `pureBody`, behind the uncached
`encode_pure_function_body`) actually runs. -/
inductive CE
  | contract (id : ProcId)
  | bMethod (k : Nat)
  | bFun (k : Nat)
  | proc (id : ProcId)
  | pureFun (id : ProcId)
  | predName (t : Sty)
  | predBody (t : Sty)
  | field (f : String)
  | pureBody (id : ProcId)
deriving DecidableEq

/-- Association-list lookup, modelling `HashMap::get` / `contains_key`. -/
def alookup {α β : Type} [DecidableEq α] (k : α) : List (α × β) → Option β
  | [] => none
  | (k', v) :: rest => if k' = k then some v else alookup k rest

/-- Association-list overwrite, modelling unguarded `HashMap::insert`
(used only by `predicate_types`). -/
def aset {α β : Type} [DecidableEq α] (k : α) (v : β) (l : List (α × β)) :
    List (α × β) :=
  if (alookup k l).isSome then
    l.map (fun p => if p.1 = k then (k, v) else p)
  else
    (k, v) :: l

/-- The mutable state of `Encoder`: every `RefCell<HashMap<..>>` cache, the
closure instantiation index, the encoding queue, plus instrumentation
(`warnings` records `warn!` calls by procedure id, `log` records
computation events). -/
structure St where
  procedure_contracts : List (ProcId × Contract)
  builtin_methods : List (Nat × BodylessMethod)
  builtin_functions : List (Nat × Function)
  procedures : List (ProcId × CfgMethod)
  pure_functions : List (ProcId × Function)
  type_predicate_names : List (Sty × String)
  predicate_types : List (String × Sty)
  type_predicates : List (String × Predicate)
  fields : List (String × Field)
  closure_instantiations : List (Nat × List CInst)
  encoding_queue : List ProcId
  warnings : List ProcId
  log : List CE
deriving DecidableEq

/-- The freshly constructed encoder state (`Encoder::new`). -/
def initSt : St :=
  { procedure_contracts := []
    builtin_methods := []
    builtin_functions := []
    procedures := []
    pure_functions := []
    type_predicate_names := []
    predicate_types := []
    type_predicates := []
    fields := []
    closure_instantiations := []
    encoding_queue := []
    warnings := []
    log := [] }

/-- The external collaborators of the encoder, as pure functions.

Modelled from the spec: the bodies of TypeEncoder, ProcedureEncoder,
PureFunctionEncoder, BuiltinEncoder and the rustc environment are not under
src/; the spec describes them as deterministic computations that may call
back into the engine only in the ways recorded here (`predicate_subtypes`
for nested predicate-name requests, `calls` for callees discovered and
enqueued while a body is encoded). -/
structure Env where
  /-- `EnvironmentImpl::has_attribute_name`. -/
  has_attr : ProcId → String → Bool
  /-- The string value of the `PRUSTI_SPEC_ATTR` attribute, when present
  (the composition of `get_attrs`, `find`, and `value_str`). -/
  prusti_spec_value : ProcId → Option String
  /-- The specification table (`TypedSpecificationMap::get`). -/
  spec_table : Nat → Option SpecificationSet
  /-- Call-site substitution applied to one assertion
  (args, target, assertion). Modelled from the spec: substitution of
  formals by actuals, structural, applied assertion-wise. -/
  subst : List Nat → Nat → Assertion → Assertion
  /-- `TypeEncoder::encode_value_field`. -/
  value_field : Sty → Field
  /-- `TypeEncoder::encode_predicate_use`: the stable predicate name of a
  type. Modelled from the spec: a deterministic function of the type
  structure. -/
  predicate_use_name : Sty → String
  /-- The sub-types whose predicate names `TypeEncoder::encode_predicate_def`
  requests while computing a predicate body. Modelled from the spec:
  body computation may call `predicate_name_for` on sub-types, including
  the type itself for recursive structures. -/
  predicate_subtypes : Sty → List Sty
  /-- `BuiltinEncoder::encode_builtin_method_def`. -/
  builtin_method_def : Nat → BodylessMethod
  /-- `BuiltinEncoder::encode_builtin_method_name`. -/
  builtin_method_name : Nat → String
  /-- `BuiltinEncoder::encode_builtin_function_def`. -/
  builtin_function_def : Nat → Function
  /-- `BuiltinEncoder::encode_builtin_function_name`. -/
  builtin_function_name : Nat → String
  /-- `ProcedureEncoder::encode_name` (mangled callable name). -/
  proc_name : ProcId → String
  /-- `ProcedureEncoder::encode`: the encoded method. -/
  mk_method : ProcId → CfgMethod
  /-- `PureFunctionEncoder::encode_function_name`. -/
  pure_name : ProcId → String
  /-- `PureFunctionEncoder::encode_function`. -/
  mk_fun : ProcId → Function
  /-- `PureFunctionEncoder::encode_bodyless_function` (trusted pure). -/
  mk_bodyless_fun : ProcId → Function
  /-- `PureFunctionEncoder::encode_body`. -/
  pure_body : ProcId → Expr
  /-- `PureFunctionEncoder::encode_function_return_type`. -/
  pure_ret : ProcId → VirType
  /-- The callees discovered (and enqueued through the engine) while the
  body of a procedure or non-trusted pure function is encoded.
  Modelled from the spec: encoding a body may discover and enqueue
  further callees. -/
  calls : ProcId → List ProcId
  /-- The closure instantiation index computed by
  `collect_closure_instantiations` from the MIR bodies. -/
  closure_index : List (Nat × List CInst)

/-- `queue_encoding`: push one id onto the encoding queue (`Vec::push`
paired with `Vec::pop` is LIFO; we model push as cons and pop as head). -/
def queue_encoding (id : ProcId) (s : St) : St :=
  { s with encoding_queue := id :: s.encoding_queue }

/-- Enqueue a list of callees one by one through `queue_encoding`. -/
def enqueue_all (ids : List ProcId) (s : St) : St :=
  ids.foldl (fun acc i => queue_encoding i acc) s

/-- Rust `str::parse::<u64>` on a digit list: `none` on empty input or any
non-digit character. -/
def digitsVal : List Char → Option Nat
  | [] => some 0
  | c :: rest =>
    if c.isDigit then
      match digitsVal rest with
      | none => none
      | some n => some (n + (c.toNat - 48) * 10 ^ rest.length)
    else none

/-- Rust `str::parse::<u64>`: optional leading plus sign, one or more
ASCII digits, value must fit in 64 bits. -/
def parseU64 (str : String) : Option Nat :=
  let cs :=
    match str.data with
    | '+' :: rest => rest
    | l => l
  match cs with
  | [] => none
  | _ =>
    match digitsVal cs with
    | none => none
    | some n => if n < 2 ^ 64 then some n else none

/-- Modelled from the spec: `encoder::borrows::compute_procedure_contract`
is not under src/; per the spec the computed contract carries the
specification's ordered precondition and postcondition sequences. -/
def compute_procedure_contract (_id : ProcId) (fun_spec : SpecificationSet) :
    Contract :=
  match fun_spec with
  | SpecificationSet.procedure pre post => { pre := pre, post := post }

/-- Modelled from the spec: `ProcedureContractMirDef::to_def_site_contract`
is not under src/; the def-site view binds formals to the procedure's own
parameter locals, leaving the assertion sequences as computed. -/
def to_def_site_contract (c : Contract) : Contract := c

/-- Modelled from the spec: `ProcedureContractMirDef::to_call_site_contract`
is not under src/; the call-site view substitutes actuals for formals in
every assertion. -/
def to_call_site_contract (env : Env) (c : Contract) (args : List Nat)
    (target : Nat) : Contract :=
  { pre := c.pre.map (env.subst args target)
    post := c.post.map (env.subst args target) }

/-- `Encoder::get_procedure_contract` (private): resolve the
`PRUSTI_SPEC_ATTR` value, parse it as u64, look it up in the specification
table; on failure warn and fall back to the vacuous specification; finally
run `compute_procedure_contract`.  One `CE.contract` event is logged per
run of this computation. -/
def get_procedure_contract (env : Env) (id : ProcId) (s : St) :
    Contract × St :=
  match ((env.prusti_spec_value id).bind parseU64).bind env.spec_table with
  | some fun_spec =>
    (compute_procedure_contract id fun_spec, { s with log := CE.contract id :: s.log })
  | none =>
    (compute_procedure_contract id (SpecificationSet.procedure [] []),
      { s with warnings := id :: s.warnings, log := CE.contract id :: s.log })

/-- `Encoder::get_procedure_contract_for_def`: `entry(id).or_insert_with`
on the contract cache, then the def-site view. -/
def get_procedure_contract_for_def (env : Env) (id : ProcId) (s : St) :
    Contract × St :=
  match alookup id s.procedure_contracts with
  | some c => (to_def_site_contract c, s)
  | none =>
    let r := get_procedure_contract env id s
    (to_def_site_contract r.1,
      { r.2 with procedure_contracts := (id, r.1) :: r.2.procedure_contracts })

/-- `Encoder::get_procedure_contract_for_call`: `entry(id).or_insert_with`
on the contract cache, then the call-site view. -/
def get_procedure_contract_for_call (env : Env) (id : ProcId)
    (args : List Nat) (target : Nat) (s : St) : Contract × St :=
  match alookup id s.procedure_contracts with
  | some c => (to_call_site_contract env c args target, s)
  | none =>
    let r := get_procedure_contract env id s
    (to_call_site_contract env r.1 args target,
      { r.2 with procedure_contracts := (id, r.1) :: r.2.procedure_contracts })

/-- `Encoder::encode_value_field`: compute the field, `or_insert` it under
its own name, and return the freshly computed field. -/
def encode_value_field (env : Env) (t : Sty) (s : St) : Field × St :=
  let field := env.value_field t
  match alookup field.name s.fields with
  | some _ => (field, s)
  | none =>
    (field, { s with fields := (field.name, field) :: s.fields,
                     log := CE.field field.name :: s.log })

/-- `Encoder::encode_discriminant_field`. -/
def encode_discriminant_field (s : St) : Field × St :=
  let field : Field := { name := "discriminant", typ := VirType.int }
  match alookup field.name s.fields with
  | some _ => (field, s)
  | none =>
    (field, { s with fields := (field.name, field) :: s.fields,
                     log := CE.field field.name :: s.log })

/-- `Encoder::encode_builtin_method_def`: compute and insert on a cache
miss, then return the cached definition. -/
def encode_builtin_method_def (env : Env) (k : Nat) (s : St) :
    BodylessMethod × St :=
  match alookup k s.builtin_methods with
  | some m => (m, s)
  | none =>
    let m := env.builtin_method_def k
    (m, { s with builtin_methods := (k, m) :: s.builtin_methods,
                 log := CE.bMethod k :: s.log })

/-- `Encoder::encode_builtin_method_use`: trigger the definition on a cache
miss, return the builtin method name. -/
def encode_builtin_method_use (env : Env) (k : Nat) (s : St) : String × St :=
  let s1 :=
    if (alookup k s.builtin_methods).isSome then s
    else (encode_builtin_method_def env k s).2
  (env.builtin_method_name k, s1)

/-- `Encoder::encode_builtin_function_def`. -/
def encode_builtin_function_def (env : Env) (k : Nat) (s : St) :
    Function × St :=
  match alookup k s.builtin_functions with
  | some f => (f, s)
  | none =>
    let f := env.builtin_function_def k
    (f, { s with builtin_functions := (k, f) :: s.builtin_functions,
                 log := CE.bFun k :: s.log })

/-- `Encoder::encode_builtin_function_use`. -/
def encode_builtin_function_use (env : Env) (k : Nat) (s : St) :
    String × St :=
  let s1 :=
    if (alookup k s.builtin_functions).isSome then s
    else (encode_builtin_function_def env k s).2
  (env.builtin_function_name k, s1)

/-- `Encoder::encode_procedure_use`: fatal (`none`) on a pure id; otherwise
enqueue the id and return the mangled name.  Per the spec the name
computation is side-effect-free with respect to the caches. -/
def encode_procedure_use (env : Env) (id : ProcId) (s : St) :
    Option (String × St) :=
  if env.has_attr id "pure" then none
  else some (env.proc_name id, queue_encoding id s)

/-- `Encoder::encode_procedure` (definition): fatal on pure or trusted ids;
on a cache miss the body is encoded (which enqueues the discovered
callees) and the method is inserted. -/
def encode_procedure (env : Env) (id : ProcId) (s : St) :
    Option (CfgMethod × St) :=
  if env.has_attr id "pure" then none
  else if env.has_attr id "trusted" then none
  else
    match alookup id s.procedures with
    | some m => some (m, s)
    | none =>
      let m := env.mk_method id
      let s1 := enqueue_all (env.calls id) s
      some (m, { s1 with procedures := (id, m) :: s1.procedures,
                         log := CE.proc id :: s1.log })

/-- `Encoder::encode_pure_function_body`: there is no cache here (the
source carries a `TODO: add caching?` comment); the body computation runs
on every call and one `CE.pureBody` event is logged each time. -/
def encode_pure_function_body (env : Env) (id : ProcId) (s : St) :
    Expr × St :=
  (env.pure_body id, { s with log := CE.pureBody id :: s.log })

/-- `Encoder::encode_pure_function_def`: fatal on a non-pure id; on a cache
miss a trusted pure id gets a bodyless function (no body traversal, no
callee discovery) and a non-trusted one gets a fully encoded function
(enqueuing its discovered callees). -/
def encode_pure_function_def (env : Env) (id : ProcId) (s : St) :
    Option (Function × St) :=
  if env.has_attr id "pure" then
    match alookup id s.pure_functions with
    | some f => some (f, s)
    | none =>
      if env.has_attr id "trusted" then
        let f := env.mk_bodyless_fun id
        some (f, { s with pure_functions := (id, f) :: s.pure_functions,
                          log := CE.pureFun id :: s.log })
      else
        let f := env.mk_fun id
        let s1 := enqueue_all (env.calls id) s
        some (f, { s1 with pure_functions := (id, f) :: s1.pure_functions,
                           log := CE.pureFun id :: s1.log })
  else none

/-- `Encoder::encode_pure_function_use`: fatal on a non-pure id; enqueue
and return the function name. -/
def encode_pure_function_use (env : Env) (id : ProcId) (s : St) :
    Option (String × St) :=
  if env.has_attr id "pure" then
    some (env.pure_name id, queue_encoding id s)
  else none

/-- `Encoder::encode_int_cast`: reinterpret a raw `u128` bit pattern at a
target type.  Rust `value as uN` keeps the low N bits (`v mod 2^N`); Rust
`value as iN` keeps the low N bits read as two's complement, which is
`Int.bmod` at modulus `2^N`; `usize`/`isize` use the host width
(`mem::size_of::<usize>() * 8`), passed as `usize_bits`.  Unsupported
types are a fatal `unimplemented!` (`none`). -/
def encode_int_cast (usize_bits : Nat) (value : Nat) (t : Sty) :
    Option Expr :=
  match t with
  | Sty.tyBool => some (Expr.boolLit (value != 0))
  | Sty.tyInt IntTy.i8 => some (Expr.intLit (Int.bmod value (2 ^ 8)))
  | Sty.tyInt IntTy.i16 => some (Expr.intLit (Int.bmod value (2 ^ 16)))
  | Sty.tyInt IntTy.i32 => some (Expr.intLit (Int.bmod value (2 ^ 32)))
  | Sty.tyInt IntTy.i64 => some (Expr.intLit (Int.bmod value (2 ^ 64)))
  | Sty.tyInt IntTy.i128 => some (Expr.intLit (Int.bmod value (2 ^ 128)))
  | Sty.tyInt IntTy.isize => some (Expr.intLit (Int.bmod value (2 ^ usize_bits)))
  | Sty.tyUint UintTy.u8 => some (Expr.intLit (value % 2 ^ 8))
  | Sty.tyUint UintTy.u16 => some (Expr.intLit (value % 2 ^ 16))
  | Sty.tyUint UintTy.u32 => some (Expr.intLit (value % 2 ^ 32))
  | Sty.tyUint UintTy.u64 => some (Expr.intLit (value % 2 ^ 64))
  | Sty.tyUint UintTy.u128 => some (Expr.intLit (value % 2 ^ 128))
  | Sty.tyUint UintTy.usize => some (Expr.intLit (value % 2 ^ usize_bits))
  | _ => none

mutual

/-- `Encoder::encode_type_predicate_use`: on a name-cache miss the name is
computed and registered FIRST, then the definition is triggered; the name
is then read back from the cache, the `predicate_types` reverse map is
updated unconditionally, and the name is returned.  `fuel` bounds the
recursion depth through the external body computation (fatal `none` when
exhausted). -/
def encode_type_predicate_use : Nat → Env → Sty → St → Option (String × St)
  | 0, _, _, _ => none
  | Nat.succ fuel, env, t, s =>
    let afterTrigger : Option St :=
      if (alookup t s.type_predicate_names).isSome then some s
      else
        let result := env.predicate_use_name t
        let s1 : St := { s with
          type_predicate_names := (t, result) :: s.type_predicate_names,
          log := CE.predName t :: s.log }
        match encode_type_predicate_def fuel env t s1 with
        | none => none
        | some (_, s2) => some s2
    match afterTrigger with
    | none => none
    | some s2 =>
      match alookup t s2.type_predicate_names with
      | none => none
      | some predicate_name =>
        some (predicate_name,
          { s2 with predicate_types := aset predicate_name t s2.predicate_types })

/-- `Encoder::encode_type_predicate_def`: resolve the name through
`encode_type_predicate_use`; on a body-cache miss compute the body
(`TypeEncoder::encode_predicate_def`, which requests the predicate names of
the sub-types through the engine) and insert it; return the cached body.
One `CE.predBody` event is logged per run of the body computation. -/
def encode_type_predicate_def : Nat → Env → Sty → St → Option (Predicate × St)
  | 0, _, _, _ => none
  | Nat.succ fuel, env, t, s =>
    match encode_type_predicate_use fuel env t s with
    | none => none
    | some (predicate_name, s1) =>
      match alookup predicate_name s1.type_predicates with
      | some p => some (p, s1)
      | none =>
        match tp_use_list fuel env (env.predicate_subtypes t) s1 with
        | none => none
        | some (refs, s2) =>
          let p : Predicate := { name := predicate_name, refs := refs }
          some (p, { s2 with
            type_predicates := (predicate_name, p) :: s2.type_predicates,
            log := CE.predBody t :: s2.log })

/-- The nested `predicate_name_for` requests issued while one predicate
body is computed, in order. -/
def tp_use_list : Nat → Env → List Sty → St → Option (List String × St)
  | 0, _, _, _ => none
  | Nat.succ _, _, [], s => some ([], s)
  | Nat.succ fuel, env, t :: rest, s =>
    match encode_type_predicate_use fuel env t s with
    | none => none
    | some (n, s1) =>
      match tp_use_list fuel env rest s1 with
      | none => none
      | some (ns, s2) => some (n :: ns, s2)

end

/-- `Encoder::encode_ref_field`: resolve the predicate name of the target
type, `or_insert` a field whose typed-reference name is the EMPTY string
(the source deliberately does not store the type name in `self.fields`),
and return a field carrying the real type name. -/
def encode_ref_field (fuel : Nat) (env : Env) (field_name : String)
    (t : Sty) (s : St) : Option (Field × St) :=
  match encode_type_predicate_use fuel env t s with
  | none => none
  | some (type_name, s1) =>
    let s2 :=
      if (alookup field_name s1.fields).isSome then s1
      else { s1 with
        fields := (field_name, { name := field_name, typ := VirType.typedRef "" }) :: s1.fields,
        log := CE.field field_name :: s1.log }
    some ({ name := field_name, typ := VirType.typedRef type_name }, s2)

/-- `Encoder::collect_closure_instantiations` (run by `initialize`): the
one-time whole-program scan, whose result is determined by the MIR bodies
supplied by the environment. -/
def collect_closure_instantiations (env : Env) (s : St) : St :=
  { s with closure_instantiations := env.closure_index }

/-- The drain loop of `Encoder::process_encoding_queue`: pop one id; pure
ids get their pure-function definition, trusted non-pure ids are skipped,
all others get their procedure definition.  `fuel` bounds the number of
iterations (fatal `none` when exhausted with a non-empty queue). -/
def process_queue_loop : Nat → Env → St → Option St
  | 0, _, s =>
    match s.encoding_queue with
    | [] => some s
    | _ :: _ => none
  | Nat.succ fuel, env, s =>
    match s.encoding_queue with
    | [] => some s
    | id :: rest =>
      let s1 : St := { s with encoding_queue := rest }
      if env.has_attr id "pure" then
        match encode_pure_function_def env id s1 with
        | none => none
        | some (_, s2) => process_queue_loop fuel env s2
      else if env.has_attr id "trusted" then
        process_queue_loop fuel env s1
      else
        match encode_procedure env id s1 with
        | none => none
        | some (_, s2) => process_queue_loop fuel env s2

/-- `Encoder::process_encoding_queue`: build the closure instantiation
index once (`initialize`), then drain the queue. -/
def process_encoding_queue (fuel : Nat) (env : Env) (s : St) : Option St :=
  process_queue_loop fuel env (collect_closure_instantiations env s)

/-- `Encoder::get_used_viper_fields`. -/
def get_used_viper_fields (s : St) : List Field :=
  s.fields.map (fun p => p.2)

/-- `Encoder::get_used_viper_functions`: builtin functions then pure
functions. -/
def get_used_viper_functions (s : St) : List Function :=
  s.builtin_functions.map (fun p => p.2) ++ s.pure_functions.map (fun p => p.2)

/-- `Encoder::get_used_viper_predicates`. -/
def get_used_viper_predicates (s : St) : List Predicate :=
  s.type_predicates.map (fun p => p.2)

/-- `Encoder::get_used_viper_methods`: builtin methods then procedures. -/
def get_used_viper_methods (s : St) : List ViperMethod :=
  s.builtin_methods.map (fun p => ViperMethod.builtin p.2) ++
    s.procedures.map (fun p => ViperMethod.user p.2)

/-- One invocation of a public `Encoder` method, as data: used to quantify
over everything a driver can do to the engine after some point. -/
inductive Op
  | opQueue (id : ProcId)
  | opContractDef (id : ProcId)
  | opContractCall (id : ProcId) (args : List Nat) (target : Nat)
  | opValueField (t : Sty)
  | opRefField (fuel : Nat) (f : String) (t : Sty)
  | opDiscrField
  | opBMethodDef (k : Nat)
  | opBMethodUse (k : Nat)
  | opBFunDef (k : Nat)
  | opBFunUse (k : Nat)
  | opProcUse (id : ProcId)
  | opProcDef (id : ProcId)
  | opPureUse (id : ProcId)
  | opPureDef (id : ProcId)
  | opPureBody (id : ProcId)
  | opTpUse (fuel : Nat) (t : Sty)
  | opTpDef (fuel : Nat) (t : Sty)
  | opProcessQueue (fuel : Nat)

/-- Run one public method for its state effect (`none` on a fatal
assertion failure or fuel exhaustion). -/
def step (env : Env) : Op → St → Option St
  | Op.opQueue id, s => some (queue_encoding id s)
  | Op.opContractDef id, s => some (get_procedure_contract_for_def env id s).2
  | Op.opContractCall id args target, s =>
    some (get_procedure_contract_for_call env id args target s).2
  | Op.opValueField t, s => some (encode_value_field env t s).2
  | Op.opRefField fuel f t, s =>
    match encode_ref_field fuel env f t s with
    | none => none
    | some (_, s') => some s'
  | Op.opDiscrField, s => some (encode_discriminant_field s).2
  | Op.opBMethodDef k, s => some (encode_builtin_method_def env k s).2
  | Op.opBMethodUse k, s => some (encode_builtin_method_use env k s).2
  | Op.opBFunDef k, s => some (encode_builtin_function_def env k s).2
  | Op.opBFunUse k, s => some (encode_builtin_function_use env k s).2
  | Op.opProcUse id, s =>
    match encode_procedure_use env id s with
    | none => none
    | some (_, s') => some s'
  | Op.opProcDef id, s =>
    match encode_procedure env id s with
    | none => none
    | some (_, s') => some s'
  | Op.opPureUse id, s =>
    match encode_pure_function_use env id s with
    | none => none
    | some (_, s') => some s'
  | Op.opPureDef id, s =>
    match encode_pure_function_def env id s with
    | none => none
    | some (_, s') => some s'
  | Op.opPureBody id, s => some (encode_pure_function_body env id s).2
  | Op.opTpUse fuel t, s =>
    match encode_type_predicate_use fuel env t s with
    | none => none
    | some (_, s') => some s'
  | Op.opTpDef fuel t, s =>
    match encode_type_predicate_def fuel env t s with
    | none => none
    | some (_, s') => some s'
  | Op.opProcessQueue fuel, s => process_encoding_queue fuel env s

/-- Run a sequence of public methods. -/
def run_ops (env : Env) : List Op → St → Option St
  | [], s => some s
  | op :: rest, s =>
    match step env op s with
    | none => none
    | some s' => run_ops env rest s'

/-! ### Association-list lemmas -/

theorem alookup_cons_self {α β : Type} [DecidableEq α] (k : α) (v : β)
    (l : List (α × β)) : alookup k ((k, v) :: l) = some v := by
  simp [alookup]

theorem alookup_cons_ne {α β : Type} [DecidableEq α] {k k' : α} (v : β)
    (l : List (α × β)) (h : k' ≠ k) :
    alookup k ((k', v) :: l) = alookup k l := by
  simp [alookup, h]

theorem alookup_cons_preserve {α β : Type} [DecidableEq α] {k k' : α}
    {v : β} (v' : β) {l : List (α × β)} (hv : alookup k l = some v)
    (habs : alookup k' l = none) :
    alookup k ((k', v') :: l) = some v := by
  by_cases h : k' = k
  · subst h; rw [hv] at habs; cases habs
  · rw [alookup_cons_ne v' l h]; exact hv

/-! ### A concrete environment for closed witnesses.

Procedure 0 is plain (its contract attribute names spec 7), 1 is pure,
2 is trusted, 3 is pure and trusted, 5 carries an unparsable contract
attribute; type `tyAdt 0` is a self-referential node type. -/

def envC : Env :=
  { has_attr := fun id a =>
      (a == "pure" && (id == 1 || id == 3)) ||
        (a == "trusted" && (id == 2 || id == 3))
    prusti_spec_value := fun id =>
      if id == 0 then some "7" else if id == 5 then some "12abc" else none
    spec_table := fun sid =>
      if sid == 7 then some (SpecificationSet.procedure [10] [20]) else none
    subst := fun args target a => a + target + args.length
    value_field := fun _ => { name := "val_int", typ := VirType.int }
    predicate_use_name := fun t =>
      match t with
      | Sty.tyAdt 0 => "Node"
      | Sty.tyAdt 1 => "Leaf"
      | _ => "Other"
    predicate_subtypes := fun t =>
      match t with
      | Sty.tyAdt 0 => [Sty.tyAdt 0]
      | _ => []
    builtin_method_def := fun _ => { name := "builtin_m" }
    builtin_method_name := fun _ => "builtin_m"
    builtin_function_def := fun _ => { name := "builtin_f", hasBody := false }
    builtin_function_name := fun _ => "builtin_f"
    proc_name := fun _ => "m_proc"
    mk_method := fun _ => { name := "m_proc" }
    pure_name := fun _ => "f_pure"
    mk_fun := fun _ => { name := "f_pure", hasBody := true }
    mk_bodyless_fun := fun _ => { name := "f_pure", hasBody := false }
    pure_body := fun id => Expr.body id
    pure_ret := fun _ => VirType.int
    calls := fun id => if id == 0 then [1, 2] else []
    closure_index := [(9, [(0, 1, 2, [3])])] }

/-! ### C7: encode_procedure_use frame conditions -/

/-- C7: for every procedure id not marked pure, `encode_procedure_use`
pushes the id onto the encoding queue, returns the mangled callable name,
and leaves every cache unchanged; calling it on a pure-marked id is a
fatal assertion failure. -/
theorem c7_encode_procedure_use_frame (env : Env) (id : ProcId) (s : St) :
    (env.has_attr id "pure" = false →
      ∃ s', encode_procedure_use env id s = some (env.proc_name id, s') ∧
        s'.encoding_queue = id :: s.encoding_queue ∧
        s'.procedure_contracts = s.procedure_contracts ∧
        s'.builtin_methods = s.builtin_methods ∧
        s'.builtin_functions = s.builtin_functions ∧
        s'.procedures = s.procedures ∧
        s'.pure_functions = s.pure_functions ∧
        s'.type_predicate_names = s.type_predicate_names ∧
        s'.predicate_types = s.predicate_types ∧
        s'.type_predicates = s.type_predicates ∧
        s'.fields = s.fields ∧
        s'.log = s.log) ∧
    (env.has_attr id "pure" = true →
      encode_procedure_use env id s = none) := by
  constructor
  · intro h
    refine ⟨queue_encoding id s, ?_, rfl, rfl, rfl, rfl, rfl, rfl, rfl, rfl, rfl, rfl, rfl⟩
    simp [encode_procedure_use, h]
  · intro h
    simp [encode_procedure_use, h]

/-- Witness for C7 at the concrete environment: id 0 is not pure, id 1 is. -/
theorem c7_witness :
    (∃ s', encode_procedure_use envC 0 initSt = some (envC.proc_name 0, s') ∧
      s'.encoding_queue = 0 :: initSt.encoding_queue ∧
      s'.procedure_contracts = initSt.procedure_contracts ∧
      s'.builtin_methods = initSt.builtin_methods ∧
      s'.builtin_functions = initSt.builtin_functions ∧
      s'.procedures = initSt.procedures ∧
      s'.pure_functions = initSt.pure_functions ∧
      s'.type_predicate_names = initSt.type_predicate_names ∧
      s'.predicate_types = initSt.predicate_types ∧
      s'.type_predicates = initSt.type_predicates ∧
      s'.fields = initSt.fields ∧
      s'.log = initSt.log) ∧
    encode_procedure_use envC 1 initSt = none :=
  ⟨(c7_encode_procedure_use_frame envC 0 initSt).1 (by decide),
    (c7_encode_procedure_use_frame envC 1 initSt).2 (by decide)⟩

/-! ### C8: encode_int_cast -/

/-- The two's-complement reading of the low `w` bits of the raw pattern
`v`: the unique integer in `[-2^(w-1), 2^(w-1))` congruent to `v`
modulo `2^w`. -/
def twos_complement (w : Nat) (v : Nat) (i : Int) : Prop :=
  -((2:Int) ^ (w - 1)) ≤ i ∧ i < (2:Int) ^ (w - 1) ∧
    ((2:Int) ^ w) ∣ ((v : Int) - i)

theorem bmod_pow_twos_complement (w v : Nat) (hw : 0 < w) :
    twos_complement w v ((v : Int).bmod (2 ^ w)) := by
  have h2w : (0:Nat) < 2 ^ w := pow_pos (by norm_num) w
  have hdm : 2 ^ w * (v / 2 ^ w) + v % 2 ^ w = v := Nat.div_add_mod v (2 ^ w)
  have hmlt : v % 2 ^ w < 2 ^ w := Nat.mod_lt v h2w
  unfold twos_complement
  rw [Int.bmod_def]
  have hcast : (v : Int) % ((2 ^ w : Nat) : Int) = ((v % 2 ^ w : Nat) : Int) := by
    push_cast
    ring
  rw [hcast]
  have hKk : ((2 ^ w : Nat) : Int) = 2 * (2:Int) ^ (w - 1) := by
    push_cast
    rw [← pow_succ']
    congr 1
    omega
  have hkpos : (0:Int) < (2:Int) ^ (w - 1) := pow_pos (by norm_num) _
  have hdmZ : ((2 ^ w : Nat) : Int) * ((v / 2 ^ w : Nat) : Int) +
      ((v % 2 ^ w : Nat) : Int) = (v : Int) := by exact_mod_cast congrArg (Nat.cast : Nat → Int) hdm
  have hm0 : (0:Int) ≤ ((v % 2 ^ w : Nat) : Int) := Int.ofNat_nonneg _
  have hmKZ : ((v % 2 ^ w : Nat) : Int) < ((2 ^ w : Nat) : Int) := by exact_mod_cast hmlt
  have hpow : ((2 ^ w : Nat) : Int) = (2:Int) ^ w := by push_cast; ring
  by_cases hlt : ((v % 2 ^ w : Nat) : Int) < (((2 ^ w : Nat) : Int) + 1) / 2
  · rw [if_pos hlt]
    refine ⟨by omega, by omega, ⟨((v / 2 ^ w : Nat) : Int), ?_⟩⟩
    rw [← hpow]
    linear_combination (-1 : Int) * hdmZ
  · rw [if_neg hlt]
    refine ⟨by omega, by omega, ⟨((v / 2 ^ w : Nat) : Int) + 1, ?_⟩⟩
    rw [← hpow]
    linear_combination (-1 : Int) * hdmZ

/-- C8: for every raw 128-bit pattern and every supported target integer
type, `encode_int_cast` truncates to the target width and reinterprets
under the target signedness: `v mod 2^w` for unsigned widths, the
two's-complement reading of the low `w` bits for signed widths (with
`usize`/`isize` at the host width `ub`), and `v != 0` for `bool`. -/
theorem c8_encode_int_cast (ub v : Nat) (hub : 0 < ub) (hv : v < 2 ^ 128) :
    encode_int_cast ub v Sty.tyBool = some (Expr.boolLit (v != 0)) ∧
    (∃ i, encode_int_cast ub v (Sty.tyInt IntTy.i8) = some (Expr.intLit i) ∧
      twos_complement 8 v i) ∧
    (∃ i, encode_int_cast ub v (Sty.tyInt IntTy.i16) = some (Expr.intLit i) ∧
      twos_complement 16 v i) ∧
    (∃ i, encode_int_cast ub v (Sty.tyInt IntTy.i32) = some (Expr.intLit i) ∧
      twos_complement 32 v i) ∧
    (∃ i, encode_int_cast ub v (Sty.tyInt IntTy.i64) = some (Expr.intLit i) ∧
      twos_complement 64 v i) ∧
    (∃ i, encode_int_cast ub v (Sty.tyInt IntTy.i128) = some (Expr.intLit i) ∧
      twos_complement 128 v i) ∧
    (∃ i, encode_int_cast ub v (Sty.tyInt IntTy.isize) = some (Expr.intLit i) ∧
      twos_complement ub v i) ∧
    encode_int_cast ub v (Sty.tyUint UintTy.u8) =
      some (Expr.intLit ((v % 2 ^ 8 : Nat) : Int)) ∧
    encode_int_cast ub v (Sty.tyUint UintTy.u16) =
      some (Expr.intLit ((v % 2 ^ 16 : Nat) : Int)) ∧
    encode_int_cast ub v (Sty.tyUint UintTy.u32) =
      some (Expr.intLit ((v % 2 ^ 32 : Nat) : Int)) ∧
    encode_int_cast ub v (Sty.tyUint UintTy.u64) =
      some (Expr.intLit ((v % 2 ^ 64 : Nat) : Int)) ∧
    encode_int_cast ub v (Sty.tyUint UintTy.u128) =
      some (Expr.intLit ((v % 2 ^ 128 : Nat) : Int)) ∧
    encode_int_cast ub v (Sty.tyUint UintTy.usize) =
      some (Expr.intLit ((v % 2 ^ ub : Nat) : Int)) := by
  refine ⟨rfl,
    ⟨_, rfl, bmod_pow_twos_complement 8 v (by norm_num)⟩,
    ⟨_, rfl, bmod_pow_twos_complement 16 v (by norm_num)⟩,
    ⟨_, rfl, bmod_pow_twos_complement 32 v (by norm_num)⟩,
    ⟨_, rfl, bmod_pow_twos_complement 64 v (by norm_num)⟩,
    ⟨_, rfl, bmod_pow_twos_complement 128 v (by norm_num)⟩,
    ⟨_, rfl, bmod_pow_twos_complement ub v hub⟩,
    ?_, ?_, ?_, ?_, ?_, ?_⟩ <;>
  · simp only [encode_int_cast, Option.some.injEq, Expr.intLit.injEq]
    push_cast
    ring

/-- Witness for C8 at `ub = 64`, `v = 300`: the i8 conjunct. -/
theorem c8_witness :
    ∃ i, encode_int_cast 64 300 (Sty.tyInt IntTy.i8) = some (Expr.intLit i) ∧
      twos_complement 8 300 i :=
  (c8_encode_int_cast 64 300 (by norm_num) (by norm_num)).2.1

/-! ### C4 and C10: missing / unparsable specifications -/

/-- C4: if a procedure id has no specification resolved for it in the
specification table, the first contract request (def-site or call-site)
logs a warning and produces a vacuously true contract (empty precondition
sequence, empty postcondition sequence); both requests return normally, so
the pass continues. -/
theorem c4_missing_spec_vacuous_contract (env : Env) (id : ProcId) (s : St)
    (hmiss : (((env.prusti_spec_value id).bind parseU64).bind env.spec_table) = none)
    (hfresh : alookup id s.procedure_contracts = none) :
    ((get_procedure_contract_for_def env id s).1.pre = [] ∧
      (get_procedure_contract_for_def env id s).1.post = [] ∧
      id ∈ (get_procedure_contract_for_def env id s).2.warnings) ∧
    (∀ args target,
      (get_procedure_contract_for_call env id args target s).1.pre = [] ∧
      (get_procedure_contract_for_call env id args target s).1.post = [] ∧
      id ∈ (get_procedure_contract_for_call env id args target s).2.warnings) := by
  have hbase : get_procedure_contract env id s =
      ({ pre := [], post := [] },
        { s with warnings := id :: s.warnings, log := CE.contract id :: s.log }) := by
    unfold get_procedure_contract
    rw [hmiss]
    rfl
  constructor
  · unfold get_procedure_contract_for_def
    rw [hfresh, hbase]
    refine ⟨rfl, rfl, ?_⟩
    simp [to_def_site_contract]
  · intro args target
    unfold get_procedure_contract_for_call
    rw [hfresh, hbase]
    refine ⟨rfl, rfl, ?_⟩
    simp [to_call_site_contract]

/-- Witness for C4: procedure 4 of the concrete environment carries no
contract attribute at all. -/
theorem c4_witness :
    ((get_procedure_contract_for_def envC 4 initSt).1.pre = [] ∧
      (get_procedure_contract_for_def envC 4 initSt).1.post = [] ∧
      4 ∈ (get_procedure_contract_for_def envC 4 initSt).2.warnings) ∧
    (∀ args target,
      (get_procedure_contract_for_call envC 4 args target initSt).1.pre = [] ∧
      (get_procedure_contract_for_call envC 4 args target initSt).1.post = [] ∧
      4 ∈ (get_procedure_contract_for_call envC 4 args target initSt).2.warnings) :=
  c4_missing_spec_vacuous_contract envC 4 initSt (by decide) (by decide)

/-- The same environment with the contract attribute of one procedure
removed. -/
def env_without_spec_attr (env : Env) (id : ProcId) : Env :=
  { env with prusti_spec_value := fun j => if j = id then none else env.prusti_spec_value j }

/-- C10: a procedure whose contract attribute is present but does not parse
as a u64 is treated identically to a procedure with no contract attribute:
both contract requests compute exactly the same results as they would with
the attribute absent, and the first request falls back to the vacuous
contract with a warning. -/
theorem c10_unparsable_attr_like_missing (env : Env) (id : ProcId)
    (str : String) (hattr : env.prusti_spec_value id = some str)
    (hbad : parseU64 str = none) :
    (∀ s, get_procedure_contract_for_def env id s =
      get_procedure_contract_for_def (env_without_spec_attr env id) id s) ∧
    (∀ args target s, get_procedure_contract_for_call env id args target s =
      get_procedure_contract_for_call (env_without_spec_attr env id) id args target s) ∧
    (∀ s, alookup id s.procedure_contracts = none →
      (get_procedure_contract_for_def env id s).1.pre = [] ∧
      (get_procedure_contract_for_def env id s).1.post = [] ∧
      id ∈ (get_procedure_contract_for_def env id s).2.warnings) := by
  have hchain : ((env.prusti_spec_value id).bind parseU64).bind env.spec_table = none := by
    rw [hattr]
    simp [Option.bind, hbad]
  have hchain' :
      (((env_without_spec_attr env id).prusti_spec_value id).bind parseU64).bind
        (env_without_spec_attr env id).spec_table = none := by
    simp [env_without_spec_attr, Option.bind]
  have hbase : ∀ s, get_procedure_contract env id s =
      get_procedure_contract (env_without_spec_attr env id) id s := by
    intro s
    unfold get_procedure_contract
    rw [hchain, hchain']
  refine ⟨?_, ?_, ?_⟩
  · intro s
    unfold get_procedure_contract_for_def
    rw [hbase s]
  · intro args target s
    unfold get_procedure_contract_for_call
    rw [hbase s]
    rfl
  · intro s hfresh
    exact (c4_missing_spec_vacuous_contract env id s hchain hfresh).1

/-- Witness for C10: procedure 5 of the concrete environment carries the
unparsable attribute value "12abc". -/
theorem c10_witness :
    (∀ s, get_procedure_contract_for_def envC 5 s =
      get_procedure_contract_for_def (env_without_spec_attr envC 5) 5 s) ∧
    (∀ args target s, get_procedure_contract_for_call envC 5 args target s =
      get_procedure_contract_for_call (env_without_spec_attr envC 5) 5 args target s) ∧
    (∀ s, alookup 5 s.procedure_contracts = none →
      (get_procedure_contract_for_def envC 5 s).1.pre = [] ∧
      (get_procedure_contract_for_def envC 5 s).1.post = [] ∧
      5 ∈ (get_procedure_contract_for_def envC 5 s).2.warnings) :=
  c10_unparsable_attr_like_missing envC 5 "12abc" (by decide) (by decide)

/-! ### Type predicate registry lemmas -/

/-- The name cache maps every registered type to the name the type encoder
computes for it. -/
def tpnConsistent (env : Env) (s : St) : Prop :=
  ∀ t n, alookup t s.type_predicate_names = some n → n = env.predicate_use_name t

/-- The state right after `encode_type_predicate_use` registers the name of
a previously unseen type, before triggering the definition. -/
def tpRegister (env : Env) (t : Sty) (s : St) : St :=
  { s with
    type_predicate_names := (t, env.predicate_use_name t) :: s.type_predicate_names,
    log := CE.predName t :: s.log }

theorem tpUse_cached (fuel : Nat) (env : Env) (t : Sty) (s : St) (n : String)
    (h : alookup t s.type_predicate_names = some n) :
    encode_type_predicate_use (fuel + 1) env t s =
      some (n, { s with predicate_types := aset n t s.predicate_types }) := by
  unfold encode_type_predicate_use
  simp [h]

theorem tpUse_uncached (fuel : Nat) (env : Env) (t : Sty) (s : St)
    (h : alookup t s.type_predicate_names = none) :
    encode_type_predicate_use (fuel + 1) env t s =
      (match (match encode_type_predicate_def fuel env t (tpRegister env t s) with
              | none => none
              | some (_, s2) => some s2) with
       | none => none
       | some s2 =>
         match alookup t s2.type_predicate_names with
         | none => none
         | some pn =>
           some (pn, { s2 with predicate_types := aset pn t s2.predicate_types })) := by
  unfold encode_type_predicate_use
  rw [h]
  rfl

theorem tpDef_succ (fuel : Nat) (env : Env) (t : Sty) (s : St) :
    encode_type_predicate_def (fuel + 1) env t s =
      (match encode_type_predicate_use fuel env t s with
       | none => none
       | some (pn, s1) =>
         match alookup pn s1.type_predicates with
         | some p => some (p, s1)
         | none =>
           match tp_use_list fuel env (env.predicate_subtypes t) s1 with
           | none => none
           | some (refs, s2) =>
             some ({ name := pn, refs := refs },
               { s2 with
                 type_predicates := (pn, { name := pn, refs := refs }) :: s2.type_predicates,
                 log := CE.predBody t :: s2.log })) := rfl

theorem tpList_nil (fuel : Nat) (env : Env) (s : St) :
    tp_use_list (fuel + 1) env [] s = some ([], s) := rfl

theorem tpList_cons (fuel : Nat) (env : Env) (t : Sty) (rest : List Sty)
    (s : St) :
    tp_use_list (fuel + 1) env (t :: rest) s =
      (match encode_type_predicate_use fuel env t s with
       | none => none
       | some (n, s1) =>
         match tp_use_list fuel env rest s1 with
         | none => none
         | some (ns, s2) => some (n :: ns, s2)) := rfl

theorem tpnConsistent_register (env : Env) (t : Sty) (s : St)
    (hcons : tpnConsistent env s) : tpnConsistent env (tpRegister env t s) := by
  intro u m hum
  by_cases het : t = u
  · subst het
    rw [show (tpRegister env t s).type_predicate_names =
        (t, env.predicate_use_name t) :: s.type_predicate_names from rfl,
      alookup_cons_self] at hum
    exact (Option.some.inj hum).symm
  · rw [show (tpRegister env t s).type_predicate_names =
        (t, env.predicate_use_name t) :: s.type_predicate_names from rfl,
      alookup_cons_ne _ _ het] at hum
    exact hcons u m hum

/-- Core properties of the type predicate registry, proved by one mutual
fuel induction: the name cache and the body cache only grow, a successful
`encode_type_predicate_use` leaves the requested type registered under the
returned name, a successful `encode_type_predicate_def` leaves the computed
predicate stored under the type's registered name, and when the name cache
agrees with the type encoder the returned names are exactly the type
encoder's names. -/
theorem tp_props (fuel : Nat) (env : Env) :
    (∀ t s n s', encode_type_predicate_use fuel env t s = some (n, s') →
      (∀ k m, alookup k s.type_predicate_names = some m →
        alookup k s'.type_predicate_names = some m) ∧
      (∀ k p, alookup k s.type_predicates = some p →
        alookup k s'.type_predicates = some p) ∧
      alookup t s'.type_predicate_names = some n ∧
      (tpnConsistent env s →
        n = env.predicate_use_name t ∧ tpnConsistent env s')) ∧
    (∀ t s p s', encode_type_predicate_def fuel env t s = some (p, s') →
      (∀ k m, alookup k s.type_predicate_names = some m →
        alookup k s'.type_predicate_names = some m) ∧
      (∀ k q, alookup k s.type_predicates = some q →
        alookup k s'.type_predicates = some q) ∧
      (∃ pn, alookup t s'.type_predicate_names = some pn ∧
        alookup pn s'.type_predicates = some p) ∧
      (tpnConsistent env s → tpnConsistent env s')) ∧
    (∀ l s ns s', tp_use_list fuel env l s = some (ns, s') →
      (∀ k m, alookup k s.type_predicate_names = some m →
        alookup k s'.type_predicate_names = some m) ∧
      (∀ k p, alookup k s.type_predicates = some p →
        alookup k s'.type_predicates = some p) ∧
      (tpnConsistent env s →
        tpnConsistent env s' ∧ ns = l.map env.predicate_use_name)) := by
  induction fuel with
  | zero =>
    refine ⟨?_, ?_, ?_⟩ <;> intro a b c d h <;> cases h
  | succ f ih =>
    obtain ⟨ihU, ihD, ihL⟩ := ih
    refine ⟨?_, ?_, ?_⟩
    · -- encode_type_predicate_use
      intro t s n s' h
      cases hc : alookup t s.type_predicate_names with
      | some n0 =>
        rw [tpUse_cached f env t s n0 hc] at h
        injection h with h'
        injection h' with hn hs
        subst hs
        refine ⟨fun k m hm => hm, fun k p hp => hp, ?_, ?_⟩
        · rw [← hn]; exact hc
        · intro hcons
          exact ⟨by rw [← hn]; exact hcons t n0 hc, hcons⟩
      | none =>
        rw [tpUse_uncached f env t s hc] at h
        cases hd : encode_type_predicate_def f env t (tpRegister env t s) with
        | none => rw [hd] at h; exact absurd h (by simp)
        | some r =>
          obtain ⟨p, s2⟩ := r
          rw [hd] at h
          dsimp only at h
          obtain ⟨hmono1, hmono2, _, hconsD⟩ := ihD t (tpRegister env t s) p s2 hd
          cases hl : alookup t s2.type_predicate_names with
          | none => rw [hl] at h; exact absurd h (by simp)
          | some pn2 =>
            rw [hl] at h
            injection h with h'
            injection h' with hn hs
            subst hs
            have hmono1' : ∀ k m, alookup k s.type_predicate_names = some m →
                alookup k s2.type_predicate_names = some m := by
              intro k m hm
              exact hmono1 k m (alookup_cons_preserve _ hm hc)
            refine ⟨hmono1', hmono2, ?_, ?_⟩
            · rw [← hn]; exact hl
            · intro hcons
              have hcons2 : tpnConsistent env s2 :=
                hconsD (tpnConsistent_register env t s hcons)
              exact ⟨by rw [← hn]; exact hcons2 t pn2 hl, hcons2⟩
    · -- encode_type_predicate_def
      intro t s p s' h
      rw [tpDef_succ] at h
      cases hu : encode_type_predicate_use f env t s with
      | none => rw [hu] at h; exact absurd h (by simp)
      | some r =>
        obtain ⟨pn, s1⟩ := r
        rw [hu] at h
        dsimp only at h
        obtain ⟨umono1, umono2, hureg, huc⟩ := ihU t s pn s1 hu
        cases hq : alookup pn s1.type_predicates with
        | some q =>
          rw [hq] at h
          injection h with h'
          injection h' with hp hs
          subst hp
          subst hs
          exact ⟨umono1, umono2, ⟨pn, hureg, hq⟩, fun hcons => (huc hcons).2⟩
        | none =>
          rw [hq] at h
          cases hl : tp_use_list f env (env.predicate_subtypes t) s1 with
          | none => rw [hl] at h; exact absurd h (by simp)
          | some r2 =>
            obtain ⟨refs, s2⟩ := r2
            rw [hl] at h
            dsimp only at h
            injection h with h'
            injection h' with hp hs
            subst hp
            subst hs
            obtain ⟨lmono1, lmono2, lcons⟩ := ihL (env.predicate_subtypes t) s1 refs s2 hl
            refine ⟨fun k m hm => lmono1 k m (umono1 k m hm), ?_,
              ⟨pn, lmono1 t pn hureg, alookup_cons_self _ _ _⟩,
              fun hcons => (lcons (huc hcons).2).1⟩
            intro k q hq2
            have h1 : alookup k s1.type_predicates = some q := umono2 k q hq2
            have h2 : alookup k s2.type_predicates = some q := lmono2 k q h1
            by_cases hk : pn = k
            · subst hk
              rw [hq] at h1
              cases h1
            · rw [show ({ s2 with
                  type_predicates := (pn, Predicate.mk pn refs) :: s2.type_predicates,
                  log := CE.predBody t :: s2.log } : St).type_predicates =
                  (pn, Predicate.mk pn refs) :: s2.type_predicates from rfl,
                alookup_cons_ne _ _ hk]
              exact h2
    · -- tp_use_list
      intro l s ns s' h
      cases l with
      | nil =>
        rw [tpList_nil] at h
        injection h with h'
        injection h' with hn hs
        subst hn
        subst hs
        exact ⟨fun k m hm => hm, fun k p hp => hp, fun hcons => ⟨hcons, rfl⟩⟩
      | cons t rest =>
        rw [tpList_cons] at h
        cases hu : encode_type_predicate_use f env t s with
        | none => rw [hu] at h; exact absurd h (by simp)
        | some r =>
          obtain ⟨n1, s1⟩ := r
          rw [hu] at h
          dsimp only at h
          cases hl : tp_use_list f env rest s1 with
          | none => rw [hl] at h; exact absurd h (by simp)
          | some r2 =>
            obtain ⟨ns2, s2⟩ := r2
            rw [hl] at h
            dsimp only at h
            injection h with h'
            injection h' with hn hs
            subst hn
            subst hs
            obtain ⟨umono1, umono2, hureg, huc⟩ := ihU t s n1 s1 hu
            obtain ⟨lmono1, lmono2, lcons⟩ := ihL rest s1 ns2 s2 hl
            refine ⟨fun k m hm => lmono1 k m (umono1 k m hm),
              fun k p hp => lmono2 k p (umono2 k p hp), ?_⟩
            intro hcons
            obtain ⟨hn1, hcons1⟩ := huc hcons
            obtain ⟨hcons2, hns2⟩ := lcons hcons1
            exact ⟨hcons2, by rw [List.map_cons, hn1, hns2]⟩

/-- The state components the type predicate registry never touches. -/
def tpFrame (s s' : St) : Prop :=
  s'.procedure_contracts = s.procedure_contracts ∧
  s'.builtin_methods = s.builtin_methods ∧
  s'.builtin_functions = s.builtin_functions ∧
  s'.procedures = s.procedures ∧
  s'.pure_functions = s.pure_functions ∧
  s'.fields = s.fields ∧
  s'.closure_instantiations = s.closure_instantiations ∧
  s'.encoding_queue = s.encoding_queue ∧
  s'.warnings = s.warnings

theorem tpFrame_refl (s : St) : tpFrame s s :=
  ⟨rfl, rfl, rfl, rfl, rfl, rfl, rfl, rfl, rfl⟩

theorem tpFrame_trans {s1 s2 s3 : St} (h1 : tpFrame s1 s2)
    (h2 : tpFrame s2 s3) : tpFrame s1 s3 := by
  obtain ⟨a1, b1, c1, d1, e1, f1, g1, h1', i1⟩ := h1
  obtain ⟨a2, b2, c2, d2, e2, f2, g2, h2', i2⟩ := h2
  exact ⟨a2.trans a1, b2.trans b1, c2.trans c1, d2.trans d1, e2.trans e1,
    f2.trans f1, g2.trans g1, h2'.trans h1', i2.trans i1⟩

/-- The type predicate registry only writes the three predicate caches and
the log: every other state component is untouched by a successful
`encode_type_predicate_use` / `_def` / nested name request. -/
theorem tp_frame (fuel : Nat) (env : Env) :
    (∀ t s n s', encode_type_predicate_use fuel env t s = some (n, s') →
      tpFrame s s') ∧
    (∀ t s p s', encode_type_predicate_def fuel env t s = some (p, s') →
      tpFrame s s') ∧
    (∀ l s ns s', tp_use_list fuel env l s = some (ns, s') → tpFrame s s') := by
  induction fuel with
  | zero => refine ⟨?_, ?_, ?_⟩ <;> intro a b c d h <;> cases h
  | succ f ih =>
    obtain ⟨ihU, ihD, ihL⟩ := ih
    refine ⟨?_, ?_, ?_⟩
    · intro t s n s' h
      cases hc : alookup t s.type_predicate_names with
      | some n0 =>
        rw [tpUse_cached f env t s n0 hc] at h
        injection h with h'
        injection h' with hn hs
        subst hs
        exact tpFrame_refl s
      | none =>
        rw [tpUse_uncached f env t s hc] at h
        cases hd : encode_type_predicate_def f env t (tpRegister env t s) with
        | none => rw [hd] at h; exact absurd h (by simp)
        | some r =>
          obtain ⟨p, s2⟩ := r
          rw [hd] at h
          dsimp only at h
          cases hl : alookup t s2.type_predicate_names with
          | none => rw [hl] at h; exact absurd h (by simp)
          | some pn2 =>
            rw [hl] at h
            injection h with h'
            injection h' with hn hs
            subst hs
            exact tpFrame_trans (tpFrame_refl _) (ihD t (tpRegister env t s) p s2 hd)
    · intro t s p s' h
      rw [tpDef_succ] at h
      cases hu : encode_type_predicate_use f env t s with
      | none => rw [hu] at h; exact absurd h (by simp)
      | some r =>
        obtain ⟨pn, s1⟩ := r
        rw [hu] at h
        dsimp only at h
        cases hq : alookup pn s1.type_predicates with
        | some q =>
          rw [hq] at h
          injection h with h'
          injection h' with hp hs
          subst hs
          exact ihU t s pn s1 hu
        | none =>
          rw [hq] at h
          cases hl : tp_use_list f env (env.predicate_subtypes t) s1 with
          | none => rw [hl] at h; exact absurd h (by simp)
          | some r2 =>
            obtain ⟨refs, s2⟩ := r2
            rw [hl] at h
            dsimp only at h
            injection h with h'
            injection h' with hp hs
            subst hs
            exact tpFrame_trans (ihU t s pn s1 hu)
              (tpFrame_trans (ihL (env.predicate_subtypes t) s1 refs s2 hl)
                (tpFrame_refl _))
    · intro l s ns s' h
      cases l with
      | nil =>
        rw [tpList_nil] at h
        injection h with h'
        injection h' with hn hs
        subst hs
        exact tpFrame_refl s
      | cons t rest =>
        rw [tpList_cons] at h
        cases hu : encode_type_predicate_use f env t s with
        | none => rw [hu] at h; exact absurd h (by simp)
        | some r =>
          obtain ⟨n1, s1⟩ := r
          rw [hu] at h
          dsimp only at h
          cases hl : tp_use_list f env rest s1 with
          | none => rw [hl] at h; exact absurd h (by simp)
          | some r2 =>
            obtain ⟨ns2, s2⟩ := r2
            rw [hl] at h
            dsimp only at h
            injection h with h'
            injection h' with hn hs
            subst hs
            exact tpFrame_trans (ihU t s n1 s1 hu) (ihL rest s1 ns2 s2 hl)

/-! ### C5: predicate name injectivity and determinism -/

/-- C5: the cached type-to-predicate-name mapping is injective and
deterministic.  The underlying name computation (`TypeEncoder`, modelled
from the spec) never collides on distinct types; on top of it the cache
yields distinct names for structurally distinct types and the identical
name on every repeated request for the same type. -/
theorem c5_predicate_names_injective_deterministic (env : Env)
    (t1 t2 : Sty) (s : St) (f1 f2 : Nat) (n1 n2 : String) (s1 s2 : St)
    (hcons : tpnConsistent env s)
    (h1 : encode_type_predicate_use f1 env t1 s = some (n1, s1))
    (h2 : encode_type_predicate_use f2 env t2 s1 = some (n2, s2)) :
    (env.predicate_use_name t1 ≠ env.predicate_use_name t2 → n1 ≠ n2) ∧
    (t1 = t2 → n1 = n2) := by
  obtain ⟨-, -, -, hc1⟩ := (tp_props f1 env).1 t1 s n1 s1 h1
  obtain ⟨hn1, hcons1⟩ := hc1 hcons
  obtain ⟨-, -, -, hc2⟩ := (tp_props f2 env).1 t2 s1 n2 s2 h2
  obtain ⟨hn2, -⟩ := hc2 hcons1
  subst hn1
  subst hn2
  exact ⟨fun hne => hne, fun het => by rw [het]⟩

/-- The results of the two concrete name requests used by the C5 witness:
the self-referential node type, then a second distinct type. -/
def c5run1 : Option (String × St) :=
  encode_type_predicate_use 5 envC (Sty.tyAdt 0) initSt

def c5st1 : St := (c5run1.getD ("", initSt)).2

def c5name1 : String := (c5run1.getD ("", initSt)).1

def c5run2 : Option (String × St) :=
  encode_type_predicate_use 5 envC (Sty.tyAdt 1) c5st1

def c5st2 : St := (c5run2.getD ("", initSt)).2

def c5name2 : String := (c5run2.getD ("", initSt)).1

/-- Witness for C5 at the concrete environment. -/
theorem c5_witness :
    (envC.predicate_use_name (Sty.tyAdt 0) ≠ envC.predicate_use_name (Sty.tyAdt 1) →
      c5name1 ≠ c5name2) ∧
    (Sty.tyAdt 0 = Sty.tyAdt 1 → c5name1 = c5name2) :=
  c5_predicate_names_injective_deterministic envC (Sty.tyAdt 0) (Sty.tyAdt 1)
    initSt 5 5 c5name1 c5name2 c5st1 c5st2
    (by intro t n h; simp [initSt, alookup] at h)
    (by decide) (by decide)

/-! ### C9: encode_ref_field caches a blank-typed field -/

/-- C9: `encode_ref_field` returns a field typed as a reference to the
predicate name of the target type, but the entry it stores under a
first-seen field name is a field whose typed-reference name is the empty
string; as predicate names are never empty, the cached artifact differs
from every value returned by this operation. -/
theorem c9_encode_ref_field_cached_differs (fuel : Nat) (env : Env)
    (f : String) (t : Sty) (s : St) (ret : Field) (s' : St)
    (hcons : tpnConsistent env s)
    (hfresh : alookup f s.fields = none)
    (h : encode_ref_field fuel env f t s = some (ret, s')) :
    (ret = { name := f, typ := VirType.typedRef (env.predicate_use_name t) } ∧
      alookup f s'.fields = some { name := f, typ := VirType.typedRef "" } ∧
      (env.predicate_use_name t ≠ "" → alookup f s'.fields ≠ some ret)) ∧
    ((∀ u, env.predicate_use_name u ≠ "") →
      ∀ fuel2 f2 t2 s2 ret2 s2', tpnConsistent env s2 →
        encode_ref_field fuel2 env f2 t2 s2 = some (ret2, s2') →
        ({ name := f, typ := VirType.typedRef "" } : Field) ≠ ret2) := by
  have hshape : ∀ fuel2 f2 t2 (s2 : St) ret2 s2', tpnConsistent env s2 →
      encode_ref_field fuel2 env f2 t2 s2 = some (ret2, s2') →
      ret2 = { name := f2, typ := VirType.typedRef (env.predicate_use_name t2) } := by
    intro fuel2 f2 t2 s2 ret2 s2' hcons2 h2
    unfold encode_ref_field at h2
    cases hu : encode_type_predicate_use fuel2 env t2 s2 with
    | none => rw [hu] at h2; exact absurd h2 (by simp)
    | some r =>
      obtain ⟨tn, sa⟩ := r
      rw [hu] at h2
      dsimp only at h2
      obtain ⟨-, -, -, hc⟩ := (tp_props fuel2 env).1 t2 s2 tn sa hu
      obtain ⟨htn, -⟩ := hc hcons2
      subst htn
      by_cases hcf : (alookup f2 sa.fields).isSome <;>
        simp only [hcf, if_true, if_false, Option.some.injEq, Prod.mk.injEq] at h2 <;>
        exact h2.1.symm
  constructor
  · have hret := hshape fuel f t s ret s' hcons h
    have hstored : alookup f s'.fields =
        some { name := f, typ := VirType.typedRef "" } := by
      unfold encode_ref_field at h
      cases hu : encode_type_predicate_use fuel env t s with
      | none => rw [hu] at h; exact absurd h (by simp)
      | some r =>
        obtain ⟨tn, sa⟩ := r
        rw [hu] at h
        dsimp only at h
        have hfa : sa.fields = s.fields :=
          ((tp_frame fuel env).1 t s tn sa hu).2.2.2.2.2.1
        have hfa' : alookup f sa.fields = none := by rw [hfa]; exact hfresh
        rw [hfa', Option.isSome_none] at h
        simp only [Bool.false_eq_true, if_false, Option.some.injEq, Prod.mk.injEq] at h
        obtain ⟨-, hs⟩ := h
        rw [← hs]
        exact alookup_cons_self _ _ _
    refine ⟨hret, hstored, ?_⟩
    intro hne hcontra
    rw [hstored] at hcontra
    rw [hret] at hcontra
    injection hcontra with hfield
    injection hfield with hx1 hx2
    injection hx2 with hx3
    exact hne hx3.symm
  · intro hnon fuel2 f2 t2 s2 ret2 s2' hcons2 h2
    rw [hshape fuel2 f2 t2 s2 ret2 s2' hcons2 h2]
    intro hx
    injection hx with hx1 hx2
    injection hx2 with hx3
    exact hnon t2 hx3.symm

/-- The concrete `encode_ref_field` run used by the C9 witness. -/
def c9run : Option (Field × St) :=
  encode_ref_field 5 envC "next" (Sty.tyAdt 0) initSt

def c9ret : Field := (c9run.getD ({ name := "", typ := VirType.int }, initSt)).1

def c9st : St := (c9run.getD ({ name := "", typ := VirType.int }, initSt)).2

/-- Witness for C9 at the concrete environment: field "next" of the node
type, first seen. -/
theorem c9_witness :
    ((c9ret =
        Field.mk "next" (VirType.typedRef (envC.predicate_use_name (Sty.tyAdt 0)))) ∧
      alookup "next" c9st.fields = some (Field.mk "next" (VirType.typedRef "")) ∧
      (envC.predicate_use_name (Sty.tyAdt 0) ≠ "" →
        alookup "next" c9st.fields ≠ some c9ret)) ∧
    ((∀ u, envC.predicate_use_name u ≠ "") →
      ∀ fuel2 f2 t2 s2 ret2 s2', tpnConsistent envC s2 →
        encode_ref_field fuel2 envC f2 t2 s2 = some (ret2, s2') →
        Field.mk "next" (VirType.typedRef "") ≠ ret2) :=
  c9_encode_ref_field_cached_differs 5 envC "next" (Sty.tyAdt 0) initSt c9ret c9st
    (by intro t n h; simp [initSt, alookup] at h)
    (by decide) (by decide)

/-! ### C2: compute-once caches, and the uncached pure-function bodies -/

/-- The state after one `encode_pure_function_body` request for pure
procedure 1. -/
def c2st1 : St := (encode_pure_function_body envC 1 initSt).2

/-- The state after a second, identical request. -/
def c2st2 : St := (encode_pure_function_body envC 1 c2st1).2

/-- Counterexample to C2 as stated: `encode_pure_function_body` has no
cache (the source carries a `TODO: add caching?` comment), so a second
request for the same key runs the underlying body computation again — the
computation log holds two `pureBody` events for procedure 1, refuting
"the computation function runs at most once over the engine's lifetime"
for the pure-function-bodies entry of the data model's cache list. -/
theorem c2_counterexample :
    (encode_pure_function_body envC 1 c2st1).1 =
      (encode_pure_function_body envC 1 initSt).1 ∧
    List.count (CE.pureBody 1) c2st1.log = 1 ∧
    List.count (CE.pureBody 1) c2st2.log = 2 ∧
    ¬ List.count (CE.pureBody 1) c2st2.log ≤ 1 := by
  refine ⟨rfl, ?_, ?_, ?_⟩ <;> decide

/-- C2 (amended): for every cache that actually exists — procedure
contracts, builtin methods, builtin functions, procedures, pure-function
definitions, type-predicate names, type-predicate bodies, and fields — a
second request for the same key returns the same artifact and runs no
computation (for the two fuelled operations: the computation log is
unchanged; for the rest: the state itself is unchanged).  Pure-function
bodies are excluded: `encode_pure_function_body` is uncached and reruns
its computation on every request. -/
theorem c2_compute_once_caches :
    (∀ (env : Env) (id : ProcId) (s : St),
      get_procedure_contract_for_def env id
          (get_procedure_contract_for_def env id s).2 =
        ((get_procedure_contract_for_def env id s).1,
          (get_procedure_contract_for_def env id s).2)) ∧
    (∀ (env : Env) (id : ProcId) (args : List Nat) (target : Nat) (s : St),
      get_procedure_contract_for_call env id args target
          (get_procedure_contract_for_call env id args target s).2 =
        ((get_procedure_contract_for_call env id args target s).1,
          (get_procedure_contract_for_call env id args target s).2)) ∧
    (∀ (env : Env) (k : Nat) (s : St),
      encode_builtin_method_def env k (encode_builtin_method_def env k s).2 =
        ((encode_builtin_method_def env k s).1,
          (encode_builtin_method_def env k s).2)) ∧
    (∀ (env : Env) (k : Nat) (s : St),
      encode_builtin_function_def env k (encode_builtin_function_def env k s).2 =
        ((encode_builtin_function_def env k s).1,
          (encode_builtin_function_def env k s).2)) ∧
    (∀ (env : Env) (id : ProcId) (s : St) (m : CfgMethod) (s' : St),
      encode_procedure env id s = some (m, s') →
      encode_procedure env id s' = some (m, s')) ∧
    (∀ (env : Env) (id : ProcId) (s : St) (fn : Function) (s' : St),
      encode_pure_function_def env id s = some (fn, s') →
      encode_pure_function_def env id s' = some (fn, s')) ∧
    (∀ (fuel f2 : Nat) (env : Env) (t : Sty) (s : St) (n : String) (s' : St),
      encode_type_predicate_use fuel env t s = some (n, s') →
      ∃ s'', encode_type_predicate_use (f2 + 1) env t s' = some (n, s'') ∧
        s''.log = s'.log) ∧
    (∀ (fuel f2 : Nat) (env : Env) (t : Sty) (s : St) (p : Predicate) (s' : St),
      encode_type_predicate_def fuel env t s = some (p, s') →
      ∃ s'', encode_type_predicate_def (f2 + 2) env t s' = some (p, s'') ∧
        s''.log = s'.log) ∧
    (∀ (env : Env) (t : Sty) (s : St),
      encode_value_field env t (encode_value_field env t s).2 =
        ((encode_value_field env t s).1, (encode_value_field env t s).2)) ∧
    (∀ (s : St),
      encode_discriminant_field (encode_discriminant_field s).2 =
        ((encode_discriminant_field s).1, (encode_discriminant_field s).2)) := by
  refine ⟨?_, ?_, ?_, ?_, ?_, ?_, ?_, ?_, ?_, ?_⟩
  · intro env id s
    cases hc : alookup id s.procedure_contracts with
    | some c =>
      unfold get_procedure_contract_for_def
      rw [hc]
      dsimp only
      rw [hc]
    | none =>
      unfold get_procedure_contract_for_def
      rw [hc]
      dsimp only
      rw [alookup_cons_self]
  · intro env id args target s
    cases hc : alookup id s.procedure_contracts with
    | some c =>
      unfold get_procedure_contract_for_call
      rw [hc]
      dsimp only
      rw [hc]
    | none =>
      unfold get_procedure_contract_for_call
      rw [hc]
      dsimp only
      rw [alookup_cons_self]
  · intro env k s
    cases hc : alookup k s.builtin_methods with
    | some m =>
      unfold encode_builtin_method_def
      rw [hc]
      dsimp only
      rw [hc]
    | none =>
      unfold encode_builtin_method_def
      rw [hc]
      dsimp only
      rw [alookup_cons_self]
  · intro env k s
    cases hc : alookup k s.builtin_functions with
    | some fn =>
      unfold encode_builtin_function_def
      rw [hc]
      dsimp only
      rw [hc]
    | none =>
      unfold encode_builtin_function_def
      rw [hc]
      dsimp only
      rw [alookup_cons_self]
  · intro env id s m s' h
    unfold encode_procedure at h ⊢
    by_cases hp : env.has_attr id "pure"
    · rw [if_pos hp] at h; cases h
    · rw [if_neg hp] at h ⊢
      by_cases ht : env.has_attr id "trusted"
      · rw [if_pos ht] at h; cases h
      · rw [if_neg ht] at h ⊢
        cases hc : alookup id s.procedures with
        | some m0 =>
          rw [hc] at h
          injection h with h'
          injection h' with hm hs
          subst hm
          subst hs
          rw [hc]
        | none =>
          rw [hc] at h
          dsimp only at h
          injection h with h'
          injection h' with hm hs
          subst hm
          subst hs
          rw [alookup_cons_self]
  · intro env id s fn s' h
    unfold encode_pure_function_def at h ⊢
    by_cases hp : env.has_attr id "pure"
    · rw [if_pos hp] at h ⊢
      cases hc : alookup id s.pure_functions with
      | some f0 =>
        rw [hc] at h
        injection h with h'
        injection h' with hf hs
        subst hf
        subst hs
        rw [hc]
      | none =>
        rw [hc] at h
        by_cases ht : env.has_attr id "trusted"
        · rw [if_pos ht] at h
          dsimp only at h
          injection h with h'
          injection h' with hf hs
          subst hf
          subst hs
          rw [alookup_cons_self]
        · rw [if_neg ht] at h
          dsimp only at h
          injection h with h'
          injection h' with hf hs
          subst hf
          subst hs
          rw [alookup_cons_self]
    · rw [if_neg hp] at h; cases h
  · intro fuel f2 env t s n s' h
    have hreg := ((tp_props fuel env).1 t s n s' h).2.2.1
    exact ⟨_, tpUse_cached f2 env t s' n hreg, rfl⟩
  · intro fuel f2 env t s p s' h
    obtain ⟨pn, hreg, hstored⟩ := ((tp_props fuel env).2.1 t s p s' h).2.2.1
    refine ⟨{ s' with predicate_types := aset pn t s'.predicate_types }, ?_, rfl⟩
    rw [tpDef_succ, tpUse_cached f2 env t s' pn hreg]
    dsimp only
    rw [hstored]
  · intro env t s
    unfold encode_value_field
    dsimp only
    cases hc : alookup (env.value_field t).name s.fields with
    | some f0 =>
      dsimp only
      rw [hc]
    | none =>
      dsimp only
      rw [alookup_cons_self]
  · intro s
    unfold encode_discriminant_field
    dsimp only
    cases hc : alookup "discriminant" s.fields with
    | some f0 =>
      dsimp only
      rw [hc]
    | none =>
      dsimp only
      rw [alookup_cons_self]

/-- The concrete `encode_procedure` run used by the C2 witness. -/
def c2prun : Option (CfgMethod × St) := encode_procedure envC 0 initSt

def c2pm : CfgMethod := (c2prun.getD ({ name := "" }, initSt)).1

def c2pst : St := (c2prun.getD ({ name := "" }, initSt)).2

/-- Witness for the amended C2 theorem: re-encoding procedure 0 right
after its first encoding returns the cached method and leaves the state
unchanged. -/
theorem c2_witness :
    encode_procedure envC 0 c2pst = some (c2pm, c2pst) :=
  c2_compute_once_caches.2.2.2.2.1 envC 0 initSt c2pm c2pst (by decide)

/-! ### C3: two-phase recursive registration -/

/-- Once the name of `t` is registered, no operation of the registry runs
the body computation of `t` again: nested name requests for `t` hit the
name cache and never re-enter `encode_type_predicate_def t`. -/
theorem tp_body_once (fuel : Nat) (env : Env) (t : Sty) :
    (∀ u s n s', (alookup t s.type_predicate_names).isSome →
      encode_type_predicate_use fuel env u s = some (n, s') →
      List.count (CE.predBody t) s'.log = List.count (CE.predBody t) s.log) ∧
    (∀ u s p s', (alookup t s.type_predicate_names).isSome → u ≠ t →
      encode_type_predicate_def fuel env u s = some (p, s') →
      List.count (CE.predBody t) s'.log = List.count (CE.predBody t) s.log) ∧
    (∀ l s ns s', (alookup t s.type_predicate_names).isSome →
      tp_use_list fuel env l s = some (ns, s') →
      List.count (CE.predBody t) s'.log = List.count (CE.predBody t) s.log) := by
  induction fuel with
  | zero =>
    refine ⟨?_, ?_, ?_⟩
    · intro u s n s' _ h; cases h
    · intro u s p s' _ _ h; cases h
    · intro l s ns s' _ h; cases h
  | succ f ih =>
    obtain ⟨ihU, ihD, ihL⟩ := ih
    have hkeep : ∀ (s s' : St),
        (∀ k m, alookup k s.type_predicate_names = some m →
          alookup k s'.type_predicate_names = some m) →
        (alookup t s.type_predicate_names).isSome →
        (alookup t s'.type_predicate_names).isSome := by
      intro s s' hmono hsome
      obtain ⟨m, hm⟩ := Option.isSome_iff_exists.mp hsome
      rw [hmono t m hm]
      rfl
    refine ⟨?_, ?_, ?_⟩
    · intro u s n s' hts h
      cases hc : alookup u s.type_predicate_names with
      | some n0 =>
        rw [tpUse_cached f env u s n0 hc] at h
        injection h with h'
        injection h' with hn hs
        subst hs
        rfl
      | none =>
        have hut : u ≠ t := by
          intro he
          subst he
          rw [hc] at hts
          cases hts
        rw [tpUse_uncached f env u s hc] at h
        cases hd : encode_type_predicate_def f env u (tpRegister env u s) with
        | none => rw [hd] at h; exact absurd h (by simp)
        | some r =>
          obtain ⟨p, s2⟩ := r
          rw [hd] at h
          dsimp only at h
          cases hl : alookup u s2.type_predicate_names with
          | none => rw [hl] at h; exact absurd h (by simp)
          | some pn2 =>
            rw [hl] at h
            injection h with h'
            injection h' with hn hs
            subst hs
            have hts1 : (alookup t (tpRegister env u s).type_predicate_names).isSome := by
              obtain ⟨m, hm⟩ := Option.isSome_iff_exists.mp hts
              rw [show (tpRegister env u s).type_predicate_names =
                  (u, env.predicate_use_name u) :: s.type_predicate_names from rfl,
                alookup_cons_ne _ _ hut, hm]
              rfl
            have hstep := ihD u (tpRegister env u s) p s2 hts1 hut hd
            rw [hstep]
            show List.count (CE.predBody t) (CE.predName u :: s.log) = _
            rw [List.count_cons_of_ne]
            intro he
            cases he
    · intro u s p s' hts hut h
      rw [tpDef_succ] at h
      cases hu : encode_type_predicate_use f env u s with
      | none => rw [hu] at h; exact absurd h (by simp)
      | some r =>
        obtain ⟨pn, s1⟩ := r
        rw [hu] at h
        dsimp only at h
        have hcount1 := ihU u s pn s1 hts hu
        have hts1 : (alookup t s1.type_predicate_names).isSome :=
          hkeep s s1 ((tp_props f env).1 u s pn s1 hu).1 hts
        cases hq : alookup pn s1.type_predicates with
        | some q =>
          rw [hq] at h
          injection h with h'
          injection h' with hp hs
          subst hs
          exact hcount1
        | none =>
          rw [hq] at h
          cases hl : tp_use_list f env (env.predicate_subtypes u) s1 with
          | none => rw [hl] at h; exact absurd h (by simp)
          | some r2 =>
            obtain ⟨refs, s2⟩ := r2
            rw [hl] at h
            dsimp only at h
            injection h with h'
            injection h' with hp hs
            subst hs
            have hcount2 := ihL (env.predicate_subtypes u) s1 refs s2 hts1 hl
            show List.count (CE.predBody t) (CE.predBody u :: s2.log) = _
            rw [List.count_cons_of_ne, hcount2, hcount1]
            intro he
            injection he with he'
            exact hut he'.symm
    · intro l s ns s' hts h
      cases l with
      | nil =>
        rw [tpList_nil] at h
        injection h with h'
        injection h' with hn hs
        subst hs
        rfl
      | cons x rest =>
        rw [tpList_cons] at h
        cases hu : encode_type_predicate_use f env x s with
        | none => rw [hu] at h; exact absurd h (by simp)
        | some r =>
          obtain ⟨n1, s1⟩ := r
          rw [hu] at h
          dsimp only at h
          cases hl : tp_use_list f env rest s1 with
          | none => rw [hl] at h; exact absurd h (by simp)
          | some r2 =>
            obtain ⟨ns2, s2⟩ := r2
            rw [hl] at h
            dsimp only at h
            injection h with h'
            injection h' with hn hs
            subst hs
            have hts1 : (alookup t s1.type_predicate_names).isSome :=
              hkeep s s1 ((tp_props f env).1 x s n1 s1 hu).1 hts
            rw [ihL rest s1 ns2 s2 hts1 hl, ihU x s n1 s1 hts hu]

/-- The number of universe types whose predicate name is not yet
registered: the termination measure of the registry. -/
def uncT (U : Finset Sty) (s : St) : Nat :=
  (U.filter (fun u => alookup u s.type_predicate_names = none)).card

theorem uncT_mono (U : Finset Sty) (s s' : St)
    (h : ∀ k m, alookup k s.type_predicate_names = some m →
      alookup k s'.type_predicate_names = some m) :
    uncT U s' ≤ uncT U s := by
  apply Finset.card_le_card
  intro x hx
  rw [Finset.mem_filter] at hx ⊢
  refine ⟨hx.1, ?_⟩
  cases hs : alookup x s.type_predicate_names with
  | none => rfl
  | some m =>
    exfalso
    have h2 := h x m hs
    rw [hx.2] at h2
    cases h2

theorem uncT_register (env : Env) (U : Finset Sty) (u : Sty) (s : St)
    (hu : u ∈ U) (habs : alookup u s.type_predicate_names = none) :
    uncT U (tpRegister env u s) + 1 = uncT U s := by
  unfold uncT
  have hmem : u ∈ U.filter (fun x => alookup x s.type_predicate_names = none) :=
    Finset.mem_filter.mpr ⟨hu, habs⟩
  have hset : U.filter
      (fun x => alookup x (tpRegister env u s).type_predicate_names = none) =
      (U.filter (fun x => alookup x s.type_predicate_names = none)).erase u := by
    ext x
    simp only [Finset.mem_filter, Finset.mem_erase]
    constructor
    · rintro ⟨hxU, hxn⟩
      by_cases hxu : u = x
      · subst hxu
        rw [show (tpRegister env u s).type_predicate_names =
            (u, env.predicate_use_name u) :: s.type_predicate_names from rfl,
          alookup_cons_self] at hxn
        cases hxn
      · rw [show (tpRegister env u s).type_predicate_names =
            (u, env.predicate_use_name u) :: s.type_predicate_names from rfl,
          alookup_cons_ne _ _ hxu] at hxn
        exact ⟨fun he => hxu he.symm, hxU, hxn⟩
    · rintro ⟨hne, hxU, hxn⟩
      refine ⟨hxU, ?_⟩
      rw [show (tpRegister env u s).type_predicate_names =
          (u, env.predicate_use_name u) :: s.type_predicate_names from rfl,
        alookup_cons_ne _ _ (fun he => hne he.symm)]
      exact hxn
  rw [hset, Finset.card_erase_of_mem hmem]
  have hpos : 0 < (U.filter (fun x => alookup x s.type_predicate_names = none)).card :=
    Finset.card_pos.mpr ⟨u, hmem⟩
  omega

/-- Fuel sufficiency: over a finite, sub-type-closed universe of types,
every registry request terminates — fuel linear in the number of not yet
registered universe types suffices. -/
theorem tp_sufficient (env : Env) (U : Finset Sty) (L : Nat)
    (hsub : ∀ u ∈ U, ∀ v ∈ env.predicate_subtypes u, v ∈ U)
    (hL : ∀ u ∈ U, (env.predicate_subtypes u).length ≤ L) :
    ∀ n : Nat,
      (∀ u s fuel, u ∈ U → uncT U s ≤ n → (L + 3) * n + 1 ≤ fuel →
        (encode_type_predicate_use fuel env u s).isSome) ∧
      (∀ u s fuel, u ∈ U → uncT U s ≤ n → (L + 3) * n + L + 3 ≤ fuel →
        (encode_type_predicate_def fuel env u s).isSome) ∧
      (∀ l s fuel, (∀ x ∈ l, x ∈ U) → uncT U s ≤ n →
        (L + 3) * n + l.length + 2 ≤ fuel →
        (tp_use_list fuel env l s).isSome) := by
  intro n
  induction n using Nat.strong_induction_on with
  | _ n IH =>
    have hUse : ∀ u s fuel, u ∈ U → uncT U s ≤ n → (L + 3) * n + 1 ≤ fuel →
        (encode_type_predicate_use fuel env u s).isSome := by
      intro u s fuel hu hunc hfuel
      obtain ⟨f, rfl⟩ : ∃ f, fuel = f + 1 := ⟨fuel - 1, by omega⟩
      cases hc : alookup u s.type_predicate_names with
      | some n0 => rw [tpUse_cached f env u s n0 hc]; rfl
      | none =>
        rw [tpUse_uncached f env u s hc]
        have hpos : 1 ≤ uncT U s :=
          Finset.card_pos.mpr ⟨u, Finset.mem_filter.mpr ⟨hu, hc⟩⟩
        have hreg := uncT_register env U u s hu hc
        have hn1 : 1 ≤ n := le_trans hpos hunc
        have hunc1 : uncT U (tpRegister env u s) ≤ n - 1 := by omega
        have hmul : (L + 3) * n = (L + 3) * (n - 1) + (L + 3) := by
          conv_lhs => rw [show n = (n - 1) + 1 from by omega]
          ring
        have hfd : (L + 3) * (n - 1) + L + 3 ≤ f := by omega
        have hd := (IH (n - 1) (by omega)).2.1 u (tpRegister env u s) f hu hunc1 hfd
        obtain ⟨⟨p, s2⟩, hd2⟩ := Option.isSome_iff_exists.mp hd
        rw [hd2]
        dsimp only
        have hregistered : alookup u (tpRegister env u s).type_predicate_names =
            some (env.predicate_use_name u) := by
          rw [show (tpRegister env u s).type_predicate_names =
              (u, env.predicate_use_name u) :: s.type_predicate_names from rfl]
          exact alookup_cons_self _ _ _
        have hreg2 := ((tp_props f env).2.1 u (tpRegister env u s) p s2 hd2).1
          u (env.predicate_use_name u) hregistered
        rw [hreg2]
        rfl
    have hList : ∀ l s fuel, (∀ x ∈ l, x ∈ U) → uncT U s ≤ n →
        (L + 3) * n + l.length + 2 ≤ fuel → (tp_use_list fuel env l s).isSome := by
      intro l
      induction l with
      | nil =>
        intro s fuel _ _ hfuel
        obtain ⟨f, rfl⟩ : ∃ f, fuel = f + 1 := ⟨fuel - 1, by omega⟩
        rw [tpList_nil]
        rfl
      | cons x rest ihl =>
        intro s fuel hx hunc hfuel
        obtain ⟨f, rfl⟩ : ∃ f, fuel = f + 1 := ⟨fuel - 1, by omega⟩
        rw [List.length_cons] at hfuel
        rw [tpList_cons]
        have hux := hUse x s f (hx x (by simp)) hunc (by omega)
        obtain ⟨⟨n1, s1⟩, hu2⟩ := Option.isSome_iff_exists.mp hux
        rw [hu2]
        dsimp only
        have hunc1 : uncT U s1 ≤ n :=
          le_trans (uncT_mono U s s1 ((tp_props f env).1 x s n1 s1 hu2).1) hunc
        have hl := ihl s1 f (fun y hy => hx y (by simp [hy])) hunc1 (by omega)
        obtain ⟨⟨ns2, s2⟩, hl2⟩ := Option.isSome_iff_exists.mp hl
        rw [hl2]
        rfl
    have hDef : ∀ u s fuel, u ∈ U → uncT U s ≤ n → (L + 3) * n + L + 3 ≤ fuel →
        (encode_type_predicate_def fuel env u s).isSome := by
      intro u s fuel hu hunc hfuel
      obtain ⟨g, rfl⟩ : ∃ g, fuel = g + 1 := ⟨fuel - 1, by omega⟩
      rw [tpDef_succ]
      have hus := hUse u s g hu hunc (by omega)
      obtain ⟨⟨pn, s1⟩, hu2⟩ := Option.isSome_iff_exists.mp hus
      rw [hu2]
      dsimp only
      cases hq : alookup pn s1.type_predicates with
      | some q => rfl
      | none =>
        have hunc1 : uncT U s1 ≤ n :=
          le_trans (uncT_mono U s s1 ((tp_props g env).1 u s pn s1 hu2).1) hunc
        have hlen := hL u hu
        have hl := hList (env.predicate_subtypes u) s1 g
          (fun y hy => hsub u hu y hy) hunc1 (by omega)
        obtain ⟨⟨refs, s2⟩, hl2⟩ := Option.isSome_iff_exists.mp hl
        rw [hl2]
        rfl
    exact ⟨hUse, hDef, hList⟩

/-- The first body computation for a type whose name is registered but
whose predicate is not yet stored: one nested name pass over the sub-types,
then the insert and the `predBody` log event. -/
theorem tpDef_fresh (g' : Nat) (env : Env) (t : Sty) (s1 : St) (pn : String)
    (hname : alookup t s1.type_predicate_names = some pn)
    (hnobody : alookup pn s1.type_predicates = none) :
    encode_type_predicate_def (g' + 2) env t s1 =
      (match tp_use_list (g' + 1) env (env.predicate_subtypes t)
          { s1 with predicate_types := aset pn t s1.predicate_types } with
       | none => none
       | some (refs, s2) =>
         some ({ name := pn, refs := refs },
           { s2 with
             type_predicates := (pn, { name := pn, refs := refs }) :: s2.type_predicates,
             log := CE.predBody t :: s2.log })) := by
  rw [show g' + 2 = (g' + 1) + 1 from rfl, tpDef_succ, tpUse_cached g' env t s1 pn hname]
  dsimp only
  rw [show ({ s1 with predicate_types := aset pn t s1.predicate_types } : St).type_predicates
      = s1.type_predicates from rfl, hnobody]

/-- C3: name-before-body registration makes recursive predicate encoding
terminate.  For a self-referential type `t` over a finite sub-type-closed
universe, `encode_type_predicate_use t` terminates; during body computation
every nested request for `t` hits the name cache, so the body computation
of `t` runs exactly once (one `predBody t` log event, no re-entry), and the
stored predicate body references the predicate's own name. -/
theorem c3_recursive_predicate_terminates (env : Env) (U : Finset Sty)
    (L : Nat) (t : Sty) (s : St)
    (hsub : ∀ u ∈ U, ∀ v ∈ env.predicate_subtypes u, v ∈ U)
    (hL : ∀ u ∈ U, (env.predicate_subtypes u).length ≤ L)
    (htU : t ∈ U)
    (hself : t ∈ env.predicate_subtypes t)
    (hcons : tpnConsistent env s)
    (hfresh : alookup t s.type_predicate_names = none)
    (hbody : alookup (env.predicate_use_name t) s.type_predicates = none)
    (hcount : List.count (CE.predBody t) s.log = 0) :
    ∃ fuel n s', encode_type_predicate_use fuel env t s = some (n, s') ∧
      n = env.predicate_use_name t ∧
      (∃ p, alookup n s'.type_predicates = some p ∧ n ∈ p.refs) ∧
      List.count (CE.predBody t) s'.log = 1 := by
  have hpos : 1 ≤ uncT U s :=
    Finset.card_pos.mpr ⟨t, Finset.mem_filter.mpr ⟨htU, hfresh⟩⟩
  have hposmul : L + 3 ≤ (L + 3) * uncT U s := by
    calc L + 3 = (L + 3) * 1 := by ring
    _ ≤ (L + 3) * uncT U s := Nat.mul_le_mul_left _ hpos
  set F := (L + 3) * uncT U s + 1 with hF
  have hsome := (tp_sufficient env U L hsub hL (uncT U s)).1 t s F htU le_rfl le_rfl
  obtain ⟨⟨n, s'⟩, hrun⟩ := Option.isSome_iff_exists.mp hsome
  refine ⟨F, n, s', hrun, ?_⟩
  have hncons := (((tp_props F env).1 t s n s' hrun).2.2.2 hcons).1
  -- dissect the run
  obtain ⟨f, hFf⟩ : ∃ f, F = f + 1 := ⟨F - 1, by omega⟩
  rw [hFf] at hrun
  rw [tpUse_uncached f env t s hfresh] at hrun
  have hregistered : alookup t (tpRegister env t s).type_predicate_names =
      some (env.predicate_use_name t) := by
    rw [show (tpRegister env t s).type_predicate_names =
        (t, env.predicate_use_name t) :: s.type_predicate_names from rfl]
    exact alookup_cons_self _ _ _
  cases hd : encode_type_predicate_def f env t (tpRegister env t s) with
  | none => rw [hd] at hrun; exact absurd hrun (by simp)
  | some r =>
    obtain ⟨p0, s2⟩ := r
    rw [hd] at hrun
    dsimp only at hrun
    cases hl2 : alookup t s2.type_predicate_names with
    | none => rw [hl2] at hrun; exact absurd hrun (by simp)
    | some pn2 =>
      rw [hl2] at hrun
      injection hrun with hrun'
      injection hrun' with hn hs
      subst hs
      -- dissect the definition run
      obtain ⟨g', hfg⟩ : ∃ g', f = g' + 2 := ⟨f - 2, by omega⟩
      have hbodyReg : alookup (env.predicate_use_name t)
          (tpRegister env t s).type_predicates = none := by
        rw [show (tpRegister env t s).type_predicates = s.type_predicates from rfl]
        exact hbody
      rw [hfg, tpDef_fresh g' env t (tpRegister env t s)
        (env.predicate_use_name t) hregistered hbodyReg] at hd
      cases hlist : tp_use_list (g' + 1) env (env.predicate_subtypes t)
          { tpRegister env t s with
            predicate_types := aset (env.predicate_use_name t) t
              (tpRegister env t s).predicate_types } with
      | none => rw [hlist] at hd; exact absurd hd (by simp)
      | some r2 =>
        obtain ⟨refs, s3⟩ := r2
        rw [hlist] at hd
        dsimp only at hd
        injection hd with hd'
        injection hd' with hp0 hs2
        have hconsReg : tpnConsistent env
            ({ tpRegister env t s with
              predicate_types := aset (env.predicate_use_name t) t
                (tpRegister env t s).predicate_types } : St) := by
          intro u m hm
          exact tpnConsistent_register env t s hcons u m hm
        obtain ⟨hconsS3, hrefs⟩ :=
          ((tp_props (g' + 1) env).2.2 (env.predicate_subtypes t) _ refs s3
            hlist).2.2 hconsReg
        have hn' : n = env.predicate_use_name t := hncons
        subst hn'
        refine ⟨rfl, ?_, ?_⟩
        · -- the stored predicate references its own name
          refine ⟨{ name := env.predicate_use_name t, refs := refs }, ?_, ?_⟩
          · rw [show ({ s2 with predicate_types := aset pn2 t s2.predicate_types } : St).type_predicates = s2.type_predicates from rfl]
            rw [← hs2]
            exact alookup_cons_self _ _ _
          · rw [hrefs]
            exact List.mem_map_of_mem env.predicate_use_name hself
        · -- the body computation ran exactly once
          have hcount3 : List.count (CE.predBody t) s3.log =
              List.count (CE.predBody t)
                ({ tpRegister env t s with
                  predicate_types := aset (env.predicate_use_name t) t
                    (tpRegister env t s).predicate_types } : St).log :=
            (tp_body_once (g' + 1) env t).2.2 (env.predicate_subtypes t) _ refs s3
              (by rw [show ({ tpRegister env t s with
                  predicate_types := aset (env.predicate_use_name t) t
                    (tpRegister env t s).predicate_types } : St).type_predicate_names =
                  (tpRegister env t s).type_predicate_names from rfl,
                hregistered]; rfl) hlist
          have hcountReg : List.count (CE.predBody t)
              ({ tpRegister env t s with
                predicate_types := aset (env.predicate_use_name t) t
                  (tpRegister env t s).predicate_types } : St).log =
              List.count (CE.predBody t) s.log := by
            show List.count (CE.predBody t) (CE.predName t :: s.log) = _
            rw [List.count_cons_of_ne]
            intro he
            cases he
          rw [show ({ s2 with predicate_types := aset pn2 t s2.predicate_types } : St).log = s2.log from rfl]
          rw [← hs2]
          show List.count (CE.predBody t) (CE.predBody t :: s3.log) = 1
          rw [List.count_cons_self, hcount3, hcountReg, hcount]

/-- Witness for C3 at the concrete environment: the node type
`tyAdt 0` is its own (only) sub-type. -/
theorem c3_witness :
    ∃ fuel n s',
      encode_type_predicate_use fuel envC (Sty.tyAdt 0) initSt = some (n, s') ∧
      n = envC.predicate_use_name (Sty.tyAdt 0) ∧
      (∃ p, alookup n s'.type_predicates = some p ∧ n ∈ p.refs) ∧
      List.count (CE.predBody (Sty.tyAdt 0)) s'.log = 1 :=
  c3_recursive_predicate_terminates envC {Sty.tyAdt 0} 1 (Sty.tyAdt 0) initSt
    (by decide) (by decide) (by decide) (by decide)
    (by intro t n h; simp [initSt, alookup] at h)
    (by decide) (by decide) (by decide)

/-! ### C6: builtin use implies definition in the final program -/

theorem enqueue_all_builtin (ids : List ProcId) (s : St) :
    (enqueue_all ids s).builtin_methods = s.builtin_methods ∧
    (enqueue_all ids s).builtin_functions = s.builtin_functions := by
  induction ids generalizing s with
  | nil => exact ⟨rfl, rfl⟩
  | cons i rest ih => exact ih (queue_encoding i s)

theorem contract_builtin (env : Env) (id : ProcId) (s : St) :
    (get_procedure_contract env id s).2.builtin_methods = s.builtin_methods ∧
    (get_procedure_contract env id s).2.builtin_functions = s.builtin_functions := by
  unfold get_procedure_contract
  cases hx : ((env.prusti_spec_value id).bind parseU64).bind env.spec_table with
  | some fs => exact ⟨rfl, rfl⟩
  | none => exact ⟨rfl, rfl⟩

theorem contract_for_def_builtin (env : Env) (id : ProcId) (s : St) :
    (get_procedure_contract_for_def env id s).2.builtin_methods = s.builtin_methods ∧
    (get_procedure_contract_for_def env id s).2.builtin_functions = s.builtin_functions := by
  unfold get_procedure_contract_for_def
  cases hc : alookup id s.procedure_contracts with
  | some c => exact ⟨rfl, rfl⟩
  | none =>
    dsimp only
    exact contract_builtin env id s

theorem contract_for_call_builtin (env : Env) (id : ProcId) (args : List Nat)
    (target : Nat) (s : St) :
    (get_procedure_contract_for_call env id args target s).2.builtin_methods =
      s.builtin_methods ∧
    (get_procedure_contract_for_call env id args target s).2.builtin_functions =
      s.builtin_functions := by
  unfold get_procedure_contract_for_call
  cases hc : alookup id s.procedure_contracts with
  | some c => exact ⟨rfl, rfl⟩
  | none =>
    dsimp only
    exact contract_builtin env id s

theorem encode_procedure_builtin (env : Env) (id : ProcId) (s : St)
    (m : CfgMethod) (s' : St) (h : encode_procedure env id s = some (m, s')) :
    s'.builtin_methods = s.builtin_methods ∧
    s'.builtin_functions = s.builtin_functions := by
  unfold encode_procedure at h
  by_cases hp : env.has_attr id "pure"
  · rw [if_pos hp] at h; cases h
  · rw [if_neg hp] at h
    by_cases ht : env.has_attr id "trusted"
    · rw [if_pos ht] at h; cases h
    · rw [if_neg ht] at h
      cases hc : alookup id s.procedures with
      | some m0 =>
        rw [hc] at h
        injection h with h'
        injection h' with hm hs
        subst hs
        exact ⟨rfl, rfl⟩
      | none =>
        rw [hc] at h
        dsimp only at h
        injection h with h'
        injection h' with hm hs
        subst hs
        have := enqueue_all_builtin (env.calls id) s
        exact ⟨this.1, this.2⟩

theorem encode_pure_def_builtin (env : Env) (id : ProcId) (s : St)
    (fn : Function) (s' : St)
    (h : encode_pure_function_def env id s = some (fn, s')) :
    s'.builtin_methods = s.builtin_methods ∧
    s'.builtin_functions = s.builtin_functions := by
  unfold encode_pure_function_def at h
  by_cases hp : env.has_attr id "pure"
  · rw [if_pos hp] at h
    cases hc : alookup id s.pure_functions with
    | some f0 =>
      rw [hc] at h
      injection h with h'
      injection h' with hm hs
      subst hs
      exact ⟨rfl, rfl⟩
    | none =>
      rw [hc] at h
      by_cases ht : env.has_attr id "trusted"
      · rw [if_pos ht] at h
        dsimp only at h
        injection h with h'
        injection h' with hm hs
        subst hs
        exact ⟨rfl, rfl⟩
      · rw [if_neg ht] at h
        dsimp only at h
        injection h with h'
        injection h' with hm hs
        subst hs
        have := enqueue_all_builtin (env.calls id) s
        exact ⟨this.1, this.2⟩
  · rw [if_neg hp] at h; cases h

theorem process_queue_loop_builtin (fuel : Nat) (env : Env) :
    ∀ s s', process_queue_loop fuel env s = some s' →
      s'.builtin_methods = s.builtin_methods ∧
      s'.builtin_functions = s.builtin_functions := by
  induction fuel with
  | zero =>
    intro s s' h
    unfold process_queue_loop at h
    cases hq : s.encoding_queue with
    | nil =>
      rw [hq] at h
      injection h with h'
      subst h'
      exact ⟨rfl, rfl⟩
    | cons id rest => rw [hq] at h; cases h
  | succ f ih =>
    intro s s' h
    unfold process_queue_loop at h
    cases hq : s.encoding_queue with
    | nil =>
      rw [hq] at h
      injection h with h'
      subst h'
      exact ⟨rfl, rfl⟩
    | cons id rest =>
      rw [hq] at h
      dsimp only at h
      by_cases hp : env.has_attr id "pure"
      · rw [if_pos hp] at h
        cases he : encode_pure_function_def env id { s with encoding_queue := rest } with
        | none => rw [he] at h; cases h
        | some r =>
          obtain ⟨fn, s2⟩ := r
          rw [he] at h
          dsimp only at h
          have h1 := encode_pure_def_builtin env id _ fn s2 he
          have h2 := ih s2 s' h
          exact ⟨h2.1.trans h1.1, h2.2.trans h1.2⟩
      · rw [if_neg hp] at h
        by_cases ht : env.has_attr id "trusted"
        · rw [if_pos ht] at h
          have h2 := ih { s with encoding_queue := rest } s' h
          exact ⟨h2.1, h2.2⟩
        · rw [if_neg ht] at h
          cases he : encode_procedure env id { s with encoding_queue := rest } with
          | none => rw [he] at h; cases h
          | some r =>
            obtain ⟨m, s2⟩ := r
            rw [he] at h
            dsimp only at h
            have h1 := encode_procedure_builtin env id _ m s2 he
            have h2 := ih s2 s' h
            exact ⟨h2.1.trans h1.1, h2.2.trans h1.2⟩

theorem ref_field_builtin (fuel : Nat) (env : Env) (f : String) (t : Sty)
    (s : St) (ret : Field) (s' : St)
    (h : encode_ref_field fuel env f t s = some (ret, s')) :
    s'.builtin_methods = s.builtin_methods ∧
    s'.builtin_functions = s.builtin_functions := by
  unfold encode_ref_field at h
  cases hu : encode_type_predicate_use fuel env t s with
  | none => rw [hu] at h; cases h
  | some r =>
    obtain ⟨tn, sa⟩ := r
    rw [hu] at h
    dsimp only at h
    have hfr := (tp_frame fuel env).1 t s tn sa hu
    injection h with h'
    injection h' with hm hs
    subst hs
    by_cases hcf : (alookup f sa.fields).isSome
    · simp only [hcf, if_true]
      exact ⟨hfr.2.1, hfr.2.2.1⟩
    · simp only [hcf, if_false]
      exact ⟨hfr.2.1, hfr.2.2.1⟩

/-- Every public engine operation preserves the entries of the two builtin
caches: an entry once present is present in every later state. -/
theorem step_builtin_preserve (env : Env) (op : Op) (s s' : St)
    (h : step env op s = some s') :
    (∀ k v, alookup k s.builtin_methods = some v →
      alookup k s'.builtin_methods = some v) ∧
    (∀ k v, alookup k s.builtin_functions = some v →
      alookup k s'.builtin_functions = some v) := by
  have of_eq : s'.builtin_methods = s.builtin_methods →
      s'.builtin_functions = s.builtin_functions →
      (∀ k v, alookup k s.builtin_methods = some v →
        alookup k s'.builtin_methods = some v) ∧
      (∀ k v, alookup k s.builtin_functions = some v →
        alookup k s'.builtin_functions = some v) := by
    intro h1 h2
    constructor <;> intro k v hv
    · rw [h1]; exact hv
    · rw [h2]; exact hv
  cases op with
  | opQueue id =>
    injection h with h'
    subst h'
    exact of_eq rfl rfl
  | opContractDef id =>
    injection h with h'
    subst h'
    have := contract_for_def_builtin env id s
    exact of_eq this.1 this.2
  | opContractCall id args target =>
    injection h with h'
    subst h'
    have := contract_for_call_builtin env id args target s
    exact of_eq this.1 this.2
  | opValueField t =>
    injection h with h'
    subst h'
    have hb : (encode_value_field env t s).2.builtin_methods = s.builtin_methods ∧
        (encode_value_field env t s).2.builtin_functions = s.builtin_functions := by
      unfold encode_value_field
      dsimp only
      cases hc : alookup (env.value_field t).name s.fields with
      | some f0 => exact ⟨rfl, rfl⟩
      | none => exact ⟨rfl, rfl⟩
    exact of_eq hb.1 hb.2
  | opRefField fuel f t =>
    cases hr : encode_ref_field fuel env f t s with
    | none => rw [show step env (Op.opRefField fuel f t) s = (match encode_ref_field fuel env f t s with | none => none | some (_, s') => some s') from rfl, hr] at h; cases h
    | some r =>
      obtain ⟨ret, s2⟩ := r
      rw [show step env (Op.opRefField fuel f t) s = (match encode_ref_field fuel env f t s with | none => none | some (_, s') => some s') from rfl, hr] at h
      dsimp only at h
      injection h with h'
      subst h'
      have := ref_field_builtin fuel env f t s ret s2 hr
      exact of_eq this.1 this.2
  | opDiscrField =>
    injection h with h'
    subst h'
    have hb : (encode_discriminant_field s).2.builtin_methods = s.builtin_methods ∧
        (encode_discriminant_field s).2.builtin_functions = s.builtin_functions := by
      unfold encode_discriminant_field
      dsimp only
      cases hc : alookup "discriminant" s.fields with
      | some f0 => exact ⟨rfl, rfl⟩
      | none => exact ⟨rfl, rfl⟩
    exact of_eq hb.1 hb.2
  | opBMethodDef k =>
    injection h with h'
    subst h'
    cases hc : alookup k s.builtin_methods with
    | some m =>
      have h1 : (encode_builtin_method_def env k s).2.builtin_methods =
          s.builtin_methods ∧
          (encode_builtin_method_def env k s).2.builtin_functions =
          s.builtin_functions := by
        unfold encode_builtin_method_def
        rw [hc]
        exact ⟨rfl, rfl⟩
      exact of_eq h1.1 h1.2
    | none =>
      have h1 : (encode_builtin_method_def env k s).2.builtin_methods =
          (k, env.builtin_method_def k) :: s.builtin_methods ∧
          (encode_builtin_method_def env k s).2.builtin_functions =
          s.builtin_functions := by
        unfold encode_builtin_method_def
        rw [hc]
        exact ⟨rfl, rfl⟩
      constructor
      · intro k2 v hv
        rw [h1.1]
        exact alookup_cons_preserve _ hv hc
      · intro k2 v hv
        rw [h1.2]
        exact hv
  | opBMethodUse k =>
    injection h with h'
    subst h'
    by_cases hc : (alookup k s.builtin_methods).isSome
    · have h1 : (encode_builtin_method_use env k s).2 = s := by
        unfold encode_builtin_method_use
        rw [if_pos hc]
      rw [h1]
      exact ⟨fun k2 v hv => hv, fun k2 v hv => hv⟩
    · rw [Option.not_isSome_iff_eq_none] at hc
      have h0 : (encode_builtin_method_use env k s).2 =
          (encode_builtin_method_def env k s).2 := by
        unfold encode_builtin_method_use
        rw [if_neg (by rw [hc]; intro hx; cases hx)]
      have h1 : (encode_builtin_method_def env k s).2.builtin_methods =
          (k, env.builtin_method_def k) :: s.builtin_methods ∧
          (encode_builtin_method_def env k s).2.builtin_functions =
          s.builtin_functions := by
        unfold encode_builtin_method_def
        rw [hc]
        exact ⟨rfl, rfl⟩
      constructor
      · intro k2 v hv
        rw [h0, h1.1]
        exact alookup_cons_preserve _ hv hc
      · intro k2 v hv
        rw [h0, h1.2]
        exact hv
  | opBFunDef k =>
    injection h with h'
    subst h'
    cases hc : alookup k s.builtin_functions with
    | some m =>
      have h1 : (encode_builtin_function_def env k s).2.builtin_methods =
          s.builtin_methods ∧
          (encode_builtin_function_def env k s).2.builtin_functions =
          s.builtin_functions := by
        unfold encode_builtin_function_def
        rw [hc]
        exact ⟨rfl, rfl⟩
      exact of_eq h1.1 h1.2
    | none =>
      have h1 : (encode_builtin_function_def env k s).2.builtin_methods =
          s.builtin_methods ∧
          (encode_builtin_function_def env k s).2.builtin_functions =
          (k, env.builtin_function_def k) :: s.builtin_functions := by
        unfold encode_builtin_function_def
        rw [hc]
        exact ⟨rfl, rfl⟩
      constructor
      · intro k2 v hv
        rw [h1.1]
        exact hv
      · intro k2 v hv
        rw [h1.2]
        exact alookup_cons_preserve _ hv hc
  | opBFunUse k =>
    injection h with h'
    subst h'
    by_cases hc : (alookup k s.builtin_functions).isSome
    · have h1 : (encode_builtin_function_use env k s).2 = s := by
        unfold encode_builtin_function_use
        rw [if_pos hc]
      rw [h1]
      exact ⟨fun k2 v hv => hv, fun k2 v hv => hv⟩
    · rw [Option.not_isSome_iff_eq_none] at hc
      have h0 : (encode_builtin_function_use env k s).2 =
          (encode_builtin_function_def env k s).2 := by
        unfold encode_builtin_function_use
        rw [if_neg (by rw [hc]; intro hx; cases hx)]
      have h1 : (encode_builtin_function_def env k s).2.builtin_methods =
          s.builtin_methods ∧
          (encode_builtin_function_def env k s).2.builtin_functions =
          (k, env.builtin_function_def k) :: s.builtin_functions := by
        unfold encode_builtin_function_def
        rw [hc]
        exact ⟨rfl, rfl⟩
      constructor
      · intro k2 v hv
        rw [h0, h1.1]
        exact hv
      · intro k2 v hv
        rw [h0, h1.2]
        exact alookup_cons_preserve _ hv hc
  | opProcUse id =>
    unfold step at h
    dsimp only at h
    cases hr : encode_procedure_use env id s with
    | none => rw [hr] at h; cases h
    | some r =>
      obtain ⟨nm, s2⟩ := r
      rw [hr] at h
      dsimp only at h
      injection h with h'
      subst h'
      unfold encode_procedure_use at hr
      by_cases hp : env.has_attr id "pure"
      · rw [if_pos hp] at hr; cases hr
      · rw [if_neg hp] at hr
        injection hr with hr'
        injection hr' with hn hs
        subst hs
        exact of_eq rfl rfl
  | opProcDef id =>
    unfold step at h
    dsimp only at h
    cases hr : encode_procedure env id s with
    | none => rw [hr] at h; cases h
    | some r =>
      obtain ⟨m, s2⟩ := r
      rw [hr] at h
      dsimp only at h
      injection h with h'
      subst h'
      have := encode_procedure_builtin env id s m s2 hr
      exact of_eq this.1 this.2
  | opPureUse id =>
    unfold step at h
    dsimp only at h
    cases hr : encode_pure_function_use env id s with
    | none => rw [hr] at h; cases h
    | some r =>
      obtain ⟨nm, s2⟩ := r
      rw [hr] at h
      dsimp only at h
      injection h with h'
      subst h'
      unfold encode_pure_function_use at hr
      by_cases hp : env.has_attr id "pure"
      · rw [if_pos hp] at hr
        injection hr with hr'
        injection hr' with hn hs
        subst hs
        exact of_eq rfl rfl
      · rw [if_neg hp] at hr; cases hr
  | opPureDef id =>
    unfold step at h
    dsimp only at h
    cases hr : encode_pure_function_def env id s with
    | none => rw [hr] at h; cases h
    | some r =>
      obtain ⟨fn, s2⟩ := r
      rw [hr] at h
      dsimp only at h
      injection h with h'
      subst h'
      have := encode_pure_def_builtin env id s fn s2 hr
      exact of_eq this.1 this.2
  | opPureBody id =>
    injection h with h'
    subst h'
    exact of_eq rfl rfl
  | opTpUse fuel t =>
    unfold step at h
    dsimp only at h
    cases hr : encode_type_predicate_use fuel env t s with
    | none => rw [hr] at h; cases h
    | some r =>
      obtain ⟨n, s2⟩ := r
      rw [hr] at h
      dsimp only at h
      injection h with h'
      subst h'
      have := (tp_frame fuel env).1 t s n s2 hr
      exact of_eq this.2.1 this.2.2.1
  | opTpDef fuel t =>
    unfold step at h
    dsimp only at h
    cases hr : encode_type_predicate_def fuel env t s with
    | none => rw [hr] at h; cases h
    | some r =>
      obtain ⟨p, s2⟩ := r
      rw [hr] at h
      dsimp only at h
      injection h with h'
      subst h'
      have := (tp_frame fuel env).2.1 t s p s2 hr
      exact of_eq this.2.1 this.2.2.1
  | opProcessQueue fuel =>
    unfold step process_encoding_queue at h
    dsimp only at h
    have := process_queue_loop_builtin fuel env _ s' h
    exact of_eq this.1 this.2

theorem run_ops_builtin_preserve (env : Env) (ops : List Op) :
    ∀ s s', run_ops env ops s = some s' →
      (∀ k v, alookup k s.builtin_methods = some v →
        alookup k s'.builtin_methods = some v) ∧
      (∀ k v, alookup k s.builtin_functions = some v →
        alookup k s'.builtin_functions = some v) := by
  induction ops with
  | nil =>
    intro s s' h
    injection h with h'
    subst h'
    exact ⟨fun k v hv => hv, fun k v hv => hv⟩
  | cons op rest ih =>
    intro s s' h
    unfold run_ops at h
    cases hs : step env op s with
    | none => rw [hs] at h; cases h
    | some s2 =>
      rw [hs] at h
      dsimp only at h
      have h1 := step_builtin_preserve env op s s2 hs
      have h2 := ih s2 s' h
      exact ⟨fun k v hv => h2.1 k v (h1.1 k v hv),
        fun k v hv => h2.2 k v (h1.2 k v hv)⟩

theorem alookup_mem_values {α β : Type} [DecidableEq α] (k : α) (v : β) :
    ∀ (l : List (α × β)), alookup k l = some v → v ∈ l.map (fun p => p.2) := by
  intro l
  induction l with
  | nil => intro h; cases h
  | cons p rest ih =>
    obtain ⟨k0, v0⟩ := p
    intro h
    unfold alookup at h
    by_cases hk : k0 = k
    · rw [if_pos hk] at h
      injection h with h'
      subst h'
      exact List.mem_cons_self _ _
    · rw [if_neg hk] at h
      exact List.mem_cons_of_mem _ (ih h)

/-- After `encode_builtin_method_use` / `encode_builtin_function_use` the
definition for the requested kind is cached. -/
theorem builtin_use_caches (env : Env) (k : Nat) (s : St) :
    (∃ d, alookup k ((encode_builtin_method_use env k s).2).builtin_methods =
      some d) ∧
    (∃ d, alookup k ((encode_builtin_function_use env k s).2).builtin_functions =
      some d) := by
  constructor
  · unfold encode_builtin_method_use
    by_cases hc : (alookup k s.builtin_methods).isSome
    · simp only [hc, if_true]
      exact Option.isSome_iff_exists.mp hc
    · simp only [hc, if_false]
      unfold encode_builtin_method_def
      rw [Option.not_isSome_iff_eq_none] at hc
      rw [hc]
      dsimp only
      exact ⟨env.builtin_method_def k, alookup_cons_self _ _ _⟩
  · unfold encode_builtin_function_use
    by_cases hc : (alookup k s.builtin_functions).isSome
    · simp only [hc, if_true]
      exact Option.isSome_iff_exists.mp hc
    · simp only [hc, if_false]
      unfold encode_builtin_function_def
      rw [Option.not_isSome_iff_eq_none] at hc
      rw [hc]
      dsimp only
      exact ⟨env.builtin_function_def k, alookup_cons_self _ _ _⟩

/-- C6: if `encode_builtin_method_use k` or `encode_builtin_function_use k`
is ever called, the definition for `k` is in the builtin cache from that
point on, through any sequence of further engine operations, and it is
contained in the final program handed to the backend
(`get_used_viper_methods` / `get_used_viper_functions`). -/
theorem c6_builtin_use_implies_def (env : Env) (k : Nat) (s : St)
    (ops : List Op) :
    (∀ s', run_ops env ops ((encode_builtin_method_use env k s).2) = some s' →
      ∃ d, alookup k s'.builtin_methods = some d ∧
        ViperMethod.builtin d ∈ get_used_viper_methods s') ∧
    (∀ s', run_ops env ops ((encode_builtin_function_use env k s).2) = some s' →
      ∃ d, alookup k s'.builtin_functions = some d ∧
        d ∈ get_used_viper_functions s') := by
  constructor
  · intro s' hrun
    obtain ⟨d, hd⟩ := (builtin_use_caches env k s).1
    have hd' := (run_ops_builtin_preserve env ops _ s' hrun).1 k d hd
    refine ⟨d, hd', ?_⟩
    unfold get_used_viper_methods
    apply List.mem_append_left
    have hmem : d ∈ s'.builtin_methods.map (fun p => p.2) :=
      alookup_mem_values k d s'.builtin_methods hd'
    have hmem2 : ViperMethod.builtin d ∈
        (s'.builtin_methods.map (fun p => p.2)).map ViperMethod.builtin :=
      List.mem_map_of_mem ViperMethod.builtin hmem
    rw [List.map_map] at hmem2
    exact hmem2
  · intro s' hrun
    obtain ⟨d, hd⟩ := (builtin_use_caches env k s).2
    have hd' := (run_ops_builtin_preserve env ops _ s' hrun).2 k d hd
    refine ⟨d, hd', ?_⟩
    unfold get_used_viper_functions
    apply List.mem_append_left
    exact alookup_mem_values k d s'.builtin_functions hd'

/-- States and operation sequence for the C6 witness. -/
def c6mst : St := (encode_builtin_method_use envC 0 initSt).2

def c6fst : St := (encode_builtin_function_use envC 0 initSt).2

def c6ops : List Op := [Op.opDiscrField, Op.opQueue 7]

def c6mres : St := (run_ops envC c6ops c6mst).getD initSt

def c6fres : St := (run_ops envC c6ops c6fst).getD initSt

/-- Witness for C6 at the concrete environment: builtin kind 0 is requested
by use, two further operations run, and the definition is in the final
program. -/
theorem c6_witness :
    (∃ d, alookup 0 c6mres.builtin_methods = some d ∧
      ViperMethod.builtin d ∈ get_used_viper_methods c6mres) ∧
    (∃ d, alookup 0 c6fres.builtin_functions = some d ∧
      d ∈ get_used_viper_functions c6fres) :=
  ⟨(c6_builtin_use_implies_def envC 0 initSt c6ops).1 c6mres (by decide),
    (c6_builtin_use_implies_def envC 0 initSt c6ops).2 c6fres (by decide)⟩

/-! ### C1: the encoding queue drains to exactly the reachable program -/

/-- Demand-driven reachability: the seeded ids are reachable, and the
callees of any reachable procedure whose body is actually encoded (that
is, any non-trusted one — trusted bodies are skipped or replaced by a
bodyless signature) are reachable. -/
inductive Reach (env : Env) (seeds : List ProcId) : ProcId → Prop
  | seed (id : ProcId) : id ∈ seeds → Reach env seeds id
  | step (p c : ProcId) : Reach env seeds p →
      env.has_attr p "trusted" = false → c ∈ env.calls p → Reach env seeds c

/-- The drain loop has dealt with an id: a pure id has its pure-function
definition cached, a trusted non-pure id needs nothing, any other id has
its procedure definition cached. -/
def settled (env : Env) (s : St) (id : ProcId) : Prop :=
  (env.has_attr id "pure" = true → (alookup id s.pure_functions).isSome) ∧
  (env.has_attr id "pure" = false → env.has_attr id "trusted" = false →
    (alookup id s.procedures).isSome)

theorem enqueue_all_queue (ids : List ProcId) (s : St) :
    (enqueue_all ids s).encoding_queue = ids.reverse ++ s.encoding_queue := by
  induction ids generalizing s with
  | nil => rfl
  | cons i rest ih =>
    show (enqueue_all rest (queue_encoding i s)).encoding_queue = _
    rw [ih (queue_encoding i s)]
    show rest.reverse ++ (i :: s.encoding_queue) = (i :: rest).reverse ++ s.encoding_queue
    simp

theorem enqueue_all_caches (ids : List ProcId) (s : St) :
    (enqueue_all ids s).procedures = s.procedures ∧
    (enqueue_all ids s).pure_functions = s.pure_functions ∧
    (enqueue_all ids s).closure_instantiations = s.closure_instantiations := by
  induction ids generalizing s with
  | nil => exact ⟨rfl, rfl, rfl⟩
  | cons i rest ih => exact ih (queue_encoding i s)

/-- The state after popping the head of the encoding queue. -/
def popSt (rest : List ProcId) (s : St) : St :=
  { s with encoding_queue := rest }

/-- The state after inserting one pure-function definition. -/
def insPure (id : ProcId) (fn : Function) (s : St) : St :=
  { s with
    pure_functions := (id, fn) :: s.pure_functions,
    log := CE.pureFun id :: s.log }

/-- The state after inserting one procedure definition. -/
def insProc (env : Env) (id : ProcId) (s : St) : St :=
  { s with
    procedures := (id, env.mk_method id) :: s.procedures,
    log := CE.proc id :: s.log }

theorem loop_nil (fuel : Nat) (env : Env) (s : St)
    (h : s.encoding_queue = []) : process_queue_loop fuel env s = some s := by
  cases fuel <;> unfold process_queue_loop <;> rw [h]

theorem loop_zero_cons (env : Env) (s : St) (id : ProcId) (rest : List ProcId)
    (h : s.encoding_queue = id :: rest) :
    process_queue_loop 0 env s = none := by
  unfold process_queue_loop
  rw [h]

theorem loop_succ_cons (f : Nat) (env : Env) (s : St) (id : ProcId)
    (rest : List ProcId) (h : s.encoding_queue = id :: rest) :
    process_queue_loop (f + 1) env s =
      (if env.has_attr id "pure" then
        match encode_pure_function_def env id (popSt rest s) with
        | none => none
        | some (_, s2) => process_queue_loop f env s2
      else if env.has_attr id "trusted" then
        process_queue_loop f env (popSt rest s)
      else
        match encode_procedure env id (popSt rest s) with
        | none => none
        | some (_, s2) => process_queue_loop f env s2) := by
  conv_lhs => rw [process_queue_loop.eq_def]
  dsimp only
  rw [h]
  dsimp only [popSt]

theorem epfd_cached (env : Env) (id : ProcId) (s : St) (f0 : Function)
    (hp : env.has_attr id "pure" = true)
    (hc : alookup id s.pure_functions = some f0) :
    encode_pure_function_def env id s = some (f0, s) := by
  unfold encode_pure_function_def
  rw [if_pos hp, hc]

theorem epfd_new_trusted (env : Env) (id : ProcId) (s : St)
    (hp : env.has_attr id "pure" = true)
    (hc : alookup id s.pure_functions = none)
    (ht : env.has_attr id "trusted" = true) :
    encode_pure_function_def env id s =
      some (env.mk_bodyless_fun id, insPure id (env.mk_bodyless_fun id) s) := by
  unfold encode_pure_function_def
  rw [if_pos hp, hc, if_pos ht]
  dsimp only [insPure]

theorem epfd_new (env : Env) (id : ProcId) (s : St)
    (hp : env.has_attr id "pure" = true)
    (hc : alookup id s.pure_functions = none)
    (ht : env.has_attr id "trusted" = false) :
    encode_pure_function_def env id s =
      some (env.mk_fun id, insPure id (env.mk_fun id) (enqueue_all (env.calls id) s)) := by
  unfold encode_pure_function_def
  rw [if_pos hp, hc, if_neg (by simp [ht])]
  dsimp only [insPure]

theorem eproc_cached (env : Env) (id : ProcId) (s : St) (m0 : CfgMethod)
    (hp : env.has_attr id "pure" = false)
    (ht : env.has_attr id "trusted" = false)
    (hc : alookup id s.procedures = some m0) :
    encode_procedure env id s = some (m0, s) := by
  unfold encode_procedure
  rw [if_neg (by simp [hp]), if_neg (by simp [ht]), hc]

theorem eproc_new (env : Env) (id : ProcId) (s : St)
    (hp : env.has_attr id "pure" = false)
    (ht : env.has_attr id "trusted" = false)
    (hc : alookup id s.procedures = none) :
    encode_procedure env id s =
      some (env.mk_method id, insProc env id (enqueue_all (env.calls id) s)) := by
  unfold encode_procedure
  rw [if_neg (by simp [hp]), if_neg (by simp [ht]), hc]
  dsimp only [insProc]

/-- One drain-loop iteration, described by cases: the popped id is either
already cached (cheap no-op pop), newly encoded (pure bodyless, pure full,
or procedure), or a skipped trusted procedure. -/
theorem loop_step (f : Nat) (env : Env) (s : St) (id : ProcId)
    (rest : List ProcId) (s' : St) (hq : s.encoding_queue = id :: rest)
    (h : process_queue_loop (f + 1) env s = some s') :
    ∃ s2, process_queue_loop f env s2 = some s' ∧
      ((env.has_attr id "pure" = true ∧ (alookup id s.pure_functions).isSome ∧
          s2 = popSt rest s) ∨
        (env.has_attr id "pure" = true ∧ alookup id s.pure_functions = none ∧
          env.has_attr id "trusted" = true ∧
          s2 = insPure id (env.mk_bodyless_fun id) (popSt rest s)) ∨
        (env.has_attr id "pure" = true ∧ alookup id s.pure_functions = none ∧
          env.has_attr id "trusted" = false ∧
          s2 = insPure id (env.mk_fun id) (enqueue_all (env.calls id) (popSt rest s))) ∨
        (env.has_attr id "pure" = false ∧ env.has_attr id "trusted" = true ∧
          s2 = popSt rest s) ∨
        (env.has_attr id "pure" = false ∧ env.has_attr id "trusted" = false ∧
          (alookup id s.procedures).isSome ∧ s2 = popSt rest s) ∨
        (env.has_attr id "pure" = false ∧ env.has_attr id "trusted" = false ∧
          alookup id s.procedures = none ∧
          s2 = insProc env id (enqueue_all (env.calls id) (popSt rest s)))) := by
  rw [loop_succ_cons f env s id rest hq] at h
  by_cases hp : env.has_attr id "pure" = true
  · rw [if_pos hp] at h
    cases hc : alookup id s.pure_functions with
    | some f0 =>
      rw [epfd_cached env id (popSt rest s) f0 hp
        (show alookup id (popSt rest s).pure_functions = some f0 from hc)] at h
      dsimp only at h
      exact ⟨popSt rest s, h, Or.inl ⟨hp, rfl, rfl⟩⟩
    | none =>
      by_cases ht : env.has_attr id "trusted" = true
      · rw [epfd_new_trusted env id (popSt rest s) hp
          (show alookup id (popSt rest s).pure_functions = none from hc) ht] at h
        dsimp only at h
        exact ⟨_, h, Or.inr (Or.inl ⟨hp, rfl, ht, rfl⟩)⟩
      · have ht' : env.has_attr id "trusted" = false := by
          cases hx : env.has_attr id "trusted"
          · rfl
          · exact absurd hx ht
        rw [epfd_new env id (popSt rest s) hp
          (show alookup id (popSt rest s).pure_functions = none from hc) ht'] at h
        dsimp only at h
        exact ⟨_, h, Or.inr (Or.inr (Or.inl ⟨hp, rfl, ht', rfl⟩))⟩
  · have hp' : env.has_attr id "pure" = false := by
      cases hx : env.has_attr id "pure"
      · rfl
      · exact absurd hx hp
    rw [if_neg hp] at h
    by_cases ht : env.has_attr id "trusted" = true
    · rw [if_pos ht] at h
      exact ⟨popSt rest s, h, Or.inr (Or.inr (Or.inr (Or.inl ⟨hp', ht, rfl⟩)))⟩
    · have ht' : env.has_attr id "trusted" = false := by
        cases hx : env.has_attr id "trusted"
        · rfl
        · exact absurd hx ht
      rw [if_neg ht] at h
      cases hc : alookup id s.procedures with
      | some m0 =>
        rw [eproc_cached env id (popSt rest s) m0 hp' ht'
          (show alookup id (popSt rest s).procedures = some m0 from hc)] at h
        dsimp only at h
        exact ⟨popSt rest s, h,
          Or.inr (Or.inr (Or.inr (Or.inr (Or.inl ⟨hp', ht', rfl, rfl⟩))))⟩
      | none =>
        rw [eproc_new env id (popSt rest s) hp' ht'
          (show alookup id (popSt rest s).procedures = none from hc)] at h
        dsimp only at h
        exact ⟨_, h,
          Or.inr (Or.inr (Or.inr (Or.inr (Or.inr ⟨hp', ht', rfl, rfl⟩))))⟩

theorem popSt_procedures (rest : List ProcId) (s : St) :
    (popSt rest s).procedures = s.procedures := rfl

theorem popSt_pure (rest : List ProcId) (s : St) :
    (popSt rest s).pure_functions = s.pure_functions := rfl

theorem popSt_closure (rest : List ProcId) (s : St) :
    (popSt rest s).closure_instantiations = s.closure_instantiations := rfl

theorem popSt_queue (rest : List ProcId) (s : St) :
    (popSt rest s).encoding_queue = rest := rfl

theorem insPure_procedures (id : ProcId) (fn : Function) (s : St) :
    (insPure id fn s).procedures = s.procedures := rfl

theorem insPure_pure (id : ProcId) (fn : Function) (s : St) :
    (insPure id fn s).pure_functions = (id, fn) :: s.pure_functions := rfl

theorem insPure_closure (id : ProcId) (fn : Function) (s : St) :
    (insPure id fn s).closure_instantiations = s.closure_instantiations := rfl

theorem insPure_queue (id : ProcId) (fn : Function) (s : St) :
    (insPure id fn s).encoding_queue = s.encoding_queue := rfl

theorem insProc_procedures (env : Env) (id : ProcId) (s : St) :
    (insProc env id s).procedures = (id, env.mk_method id) :: s.procedures := rfl

theorem insProc_pure (env : Env) (id : ProcId) (s : St) :
    (insProc env id s).pure_functions = s.pure_functions := rfl

theorem insProc_closure (env : Env) (id : ProcId) (s : St) :
    (insProc env id s).closure_instantiations = s.closure_instantiations := rfl

theorem insProc_queue (env : Env) (id : ProcId) (s : St) :
    (insProc env id s).encoding_queue = s.encoding_queue := rfl

/-- A successful drain run ends with the encoding queue empty. -/
theorem loop_final_queue (env : Env) :
    ∀ fuel s s', process_queue_loop fuel env s = some s' →
      s'.encoding_queue = [] := by
  intro fuel
  induction fuel with
  | zero =>
    intro s s' h
    cases hq : s.encoding_queue with
    | nil =>
      rw [loop_nil 0 env s hq] at h
      injection h with h'
      subst h'
      exact hq
    | cons id rest => rw [loop_zero_cons env s id rest hq] at h; cases h
  | succ f ih =>
    intro s s' h
    cases hq : s.encoding_queue with
    | nil =>
      rw [loop_nil (f + 1) env s hq] at h
      injection h with h'
      subst h'
      exact hq
    | cons id rest =>
      obtain ⟨s2, h2, -⟩ := loop_step f env s id rest s' hq h
      exact ih s2 s' h2

/-- A successful drain run only grows the two procedure caches and never
touches the closure instantiation index. -/
theorem loop_mono (env : Env) :
    ∀ fuel s s', process_queue_loop fuel env s = some s' →
      (∀ k v, alookup k s.procedures = some v →
        alookup k s'.procedures = some v) ∧
      (∀ k v, alookup k s.pure_functions = some v →
        alookup k s'.pure_functions = some v) ∧
      s'.closure_instantiations = s.closure_instantiations := by
  intro fuel
  induction fuel with
  | zero =>
    intro s s' h
    cases hq : s.encoding_queue with
    | nil =>
      rw [loop_nil 0 env s hq] at h
      injection h with h'
      subst h'
      exact ⟨fun k v hv => hv, fun k v hv => hv, rfl⟩
    | cons id rest => rw [loop_zero_cons env s id rest hq] at h; cases h
  | succ f ih =>
    intro s s' h
    cases hq : s.encoding_queue with
    | nil =>
      rw [loop_nil (f + 1) env s hq] at h
      injection h with h'
      subst h'
      exact ⟨fun k v hv => hv, fun k v hv => hv, rfl⟩
    | cons id rest =>
      obtain ⟨s2, h2, hcase⟩ := loop_step f env s id rest s' hq h
      obtain ⟨ih1, ih2, ih3⟩ := ih s2 s' h2
      rcases hcase with ⟨hp, hcs, he⟩ | ⟨hp, hc, ht, he⟩ | ⟨hp, hc, ht, he⟩ |
        ⟨hp, ht, he⟩ | ⟨hp, ht, hcs, he⟩ | ⟨hp, ht, hc, he⟩ <;> subst he
      · exact ⟨ih1, ih2, ih3⟩
      · refine ⟨ih1, fun k v hv => ih2 k v ?_, ih3⟩
        rw [insPure_pure, popSt_pure]
        exact alookup_cons_preserve _ hv hc
      · have hcaches := enqueue_all_caches (env.calls id) (popSt rest s)
        refine ⟨fun k v hv => ih1 k v ?_, fun k v hv => ih2 k v ?_, ih3.trans ?_⟩
        · rw [insPure_procedures, hcaches.1, popSt_procedures]
          exact hv
        · rw [insPure_pure, hcaches.2.1, popSt_pure]
          exact alookup_cons_preserve _ hv hc
        · rw [insPure_closure, hcaches.2.2, popSt_closure]
      · exact ⟨ih1, ih2, ih3⟩
      · exact ⟨ih1, ih2, ih3⟩
      · have hcaches := enqueue_all_caches (env.calls id) (popSt rest s)
        refine ⟨fun k v hv => ih1 k v ?_, fun k v hv => ih2 k v ?_, ih3.trans ?_⟩
        · rw [insProc_procedures, hcaches.1, popSt_procedures]
          exact alookup_cons_preserve _ hv hc
        · rw [insProc_pure, hcaches.2.1, popSt_pure]
          exact hv
        · rw [insProc_closure, hcaches.2.2, popSt_closure]

theorem settled_mono (env : Env) (s2 s' : St) (id : ProcId)
    (hm1 : ∀ k v, alookup k s2.procedures = some v →
      alookup k s'.procedures = some v)
    (hm2 : ∀ k v, alookup k s2.pure_functions = some v →
      alookup k s'.pure_functions = some v)
    (h : settled env s2 id) : settled env s' id := by
  obtain ⟨h1, h2⟩ := h
  constructor
  · intro hp
    obtain ⟨v, hv⟩ := Option.isSome_iff_exists.mp (h1 hp)
    rw [hm2 id v hv]
    rfl
  · intro hp ht
    obtain ⟨v, hv⟩ := Option.isSome_iff_exists.mp (h2 hp ht)
    rw [hm1 id v hv]
    rfl

/-- Every id on the queue of a successful drain run is settled in the
final state: pure ids end in the pure-function cache, trusted non-pure ids
need nothing, all others end in the procedure cache. -/
theorem loop_settle (env : Env) :
    ∀ fuel s s', process_queue_loop fuel env s = some s' →
      ∀ id, id ∈ s.encoding_queue → settled env s' id := by
  intro fuel
  induction fuel with
  | zero =>
    intro s s' h id hid
    cases hq : s.encoding_queue with
    | nil => rw [hq] at hid; cases hid
    | cons id0 rest => rw [loop_zero_cons env s id0 rest hq] at h; cases h
  | succ f ih =>
    intro s s' h x hx
    cases hq : s.encoding_queue with
    | nil => rw [hq] at hx; cases hx
    | cons id rest =>
      obtain ⟨s2, h2, hcase⟩ := loop_step f env s id rest s' hq h
      rw [hq] at hx
      obtain ⟨ihm1, ihm2, -⟩ := loop_mono env f s2 s' h2
      cases List.mem_cons.mp hx with
      | inr hxr =>
        -- x comes from the remaining queue, present in every branch
        apply ih s2 s' h2 x
        rcases hcase with ⟨hp, hcs, he⟩ | ⟨hp, hc, ht, he⟩ | ⟨hp, hc, ht, he⟩ |
          ⟨hp, ht, he⟩ | ⟨hp, ht, hcs, he⟩ | ⟨hp, ht, hc, he⟩ <;> subst he
        · rw [popSt_queue]; exact hxr
        · rw [insPure_queue, popSt_queue]; exact hxr
        · rw [insPure_queue, enqueue_all_queue, popSt_queue]
          exact List.mem_append_right _ hxr
        · rw [popSt_queue]; exact hxr
        · rw [popSt_queue]; exact hxr
        · rw [insProc_queue, enqueue_all_queue, popSt_queue]
          exact List.mem_append_right _ hxr
      | inl hxid =>
        subst hxid
        rcases hcase with ⟨hp, hcs, he⟩ | ⟨hp, hc, ht, he⟩ | ⟨hp, hc, ht, he⟩ |
          ⟨hp, ht, he⟩ | ⟨hp, ht, hcs, he⟩ | ⟨hp, ht, hc, he⟩ <;> subst he
        · -- pure, already cached
          refine settled_mono env _ s' x ihm1 ihm2 ⟨fun _ => ?_, fun hp2 _ => ?_⟩
          · rw [popSt_pure]; exact hcs
          · rw [hp] at hp2; cases hp2
        · -- pure, newly encoded bodyless
          refine settled_mono env _ s' x ihm1 ihm2 ⟨fun _ => ?_, fun hp2 _ => ?_⟩
          · rw [insPure_pure, popSt_pure, alookup_cons_self]; rfl
          · rw [hp] at hp2; cases hp2
        · -- pure, newly encoded with body
          refine settled_mono env _ s' x ihm1 ihm2 ⟨fun _ => ?_, fun hp2 _ => ?_⟩
          · rw [insPure_pure, alookup_cons_self]; rfl
          · rw [hp] at hp2; cases hp2
        · -- trusted non-pure: vacuously settled
          refine ⟨fun hp2 => ?_, fun _ ht2 => ?_⟩
          · rw [hp] at hp2; cases hp2
          · rw [ht] at ht2; cases ht2
        · -- procedure, already cached
          refine settled_mono env _ s' x ihm1 ihm2 ⟨fun hp2 => ?_, fun _ _ => ?_⟩
          · rw [hp] at hp2; cases hp2
          · rw [popSt_procedures]; exact hcs
        · -- procedure, newly encoded
          refine settled_mono env _ s' x ihm1 ihm2 ⟨fun hp2 => ?_, fun _ _ => ?_⟩
          · rw [hp] at hp2; cases hp2
          · rw [insProc_procedures, alookup_cons_self]; rfl

/-- Whenever a successful drain run encodes the body of a procedure or a
non-trusted pure function, the callees it discovers are settled in the
final state. -/
theorem loop_calls (env : Env) :
    ∀ fuel s s', process_queue_loop fuel env s = some s' →
      (∀ p, alookup p s.pure_functions = none →
        (alookup p s'.pure_functions).isSome →
        env.has_attr p "trusted" = false →
        ∀ c ∈ env.calls p, settled env s' c) ∧
      (∀ p, alookup p s.procedures = none →
        (alookup p s'.procedures).isSome →
        ∀ c ∈ env.calls p, settled env s' c) := by
  intro fuel
  induction fuel with
  | zero =>
    intro s s' h
    cases hq : s.encoding_queue with
    | nil =>
      rw [loop_nil 0 env s hq] at h
      injection h with h'
      subst h'
      constructor
      · intro p hn hs
        rw [hn] at hs
        cases hs
      · intro p hn hs
        rw [hn] at hs
        cases hs
    | cons id0 rest => rw [loop_zero_cons env s id0 rest hq] at h; cases h
  | succ f ih =>
    intro s s' h
    cases hq : s.encoding_queue with
    | nil =>
      rw [loop_nil (f + 1) env s hq] at h
      injection h with h'
      subst h'
      constructor
      · intro p hn hs
        rw [hn] at hs
        cases hs
      · intro p hn hs
        rw [hn] at hs
        cases hs
    | cons id rest =>
      obtain ⟨s2, h2, hcase⟩ := loop_step f env s id rest s' hq h
      obtain ⟨ihP, ihM⟩ := ih s2 s' h2
      rcases hcase with ⟨hp, hcs, he⟩ | ⟨hp, hc, ht, he⟩ | ⟨hp, hc, ht, he⟩ |
        ⟨hp, ht, he⟩ | ⟨hp, ht, hcs, he⟩ | ⟨hp, ht, hc, he⟩ <;> subst he
      · exact ⟨fun p hn => ihP p (by rw [popSt_pure]; exact hn),
          fun p hn => ihM p (by rw [popSt_procedures]; exact hn)⟩
      · -- pure trusted bodyless insert
        constructor
        · intro p hn hs htp c hcall
          by_cases hpid : id = p
          · subst hpid
            rw [ht] at htp
            cases htp
          · refine ihP p ?_ hs htp c hcall
            rw [insPure_pure, popSt_pure, alookup_cons_ne _ _ hpid]
            exact hn
        · intro p hn
          exact ihM p (by rw [insPure_procedures, popSt_procedures]; exact hn)
      · -- pure untrusted insert with callee enqueue
        constructor
        · intro p hn hs htp c hcall
          by_cases hpid : id = p
          · subst hpid
            apply loop_settle env f _ s' h2 c
            rw [insPure_queue, enqueue_all_queue, popSt_queue]
            apply List.mem_append_left
            rw [List.mem_reverse]
            exact hcall
          · refine ihP p ?_ hs htp c hcall
            rw [insPure_pure, (enqueue_all_caches (env.calls id) (popSt rest s)).2.1,
              popSt_pure, alookup_cons_ne _ _ hpid]
            exact hn
        · intro p hn
          refine ihM p ?_
          rw [insPure_procedures, (enqueue_all_caches (env.calls id) (popSt rest s)).1,
            popSt_procedures]
          exact hn
      · exact ⟨fun p hn => ihP p (by rw [popSt_pure]; exact hn),
          fun p hn => ihM p (by rw [popSt_procedures]; exact hn)⟩
      · exact ⟨fun p hn => ihP p (by rw [popSt_pure]; exact hn),
          fun p hn => ihM p (by rw [popSt_procedures]; exact hn)⟩
      · -- procedure insert with callee enqueue
        constructor
        · intro p hn
          refine ihP p ?_
          rw [insProc_pure, (enqueue_all_caches (env.calls id) (popSt rest s)).2.1,
            popSt_pure]
          exact hn
        · intro p hn hs c hcall
          by_cases hpid : id = p
          · subst hpid
            apply loop_settle env f _ s' h2 c
            rw [insProc_queue, enqueue_all_queue, popSt_queue]
            apply List.mem_append_left
            rw [List.mem_reverse]
            exact hcall
          · refine ihM p ?_ hs c hcall
            rw [insProc_procedures, (enqueue_all_caches (env.calls id) (popSt rest s)).1,
              popSt_procedures, alookup_cons_ne _ _ hpid]
            exact hn

/-- The number of universe procedures not yet encoded in either cache:
the termination measure of the drain loop (weighted with the queue
length). -/
def uncP (U : Finset ProcId) (s : St) : Nat :=
  (U.filter (fun i => alookup i s.procedures = none ∧
    alookup i s.pure_functions = none)).card

theorem uncP_congr (U : Finset ProcId) (s1 s2 : St)
    (h1 : s1.procedures = s2.procedures)
    (h2 : s1.pure_functions = s2.pure_functions) : uncP U s1 = uncP U s2 := by
  unfold uncP
  simp only [h1, h2]

theorem uncP_popSt (U : Finset ProcId) (rest : List ProcId) (s : St) :
    uncP U (popSt rest s) = uncP U s :=
  uncP_congr U _ _ rfl rfl

theorem uncP_enqueue (U : Finset ProcId) (ids : List ProcId) (s : St) :
    uncP U (enqueue_all ids s) = uncP U s :=
  uncP_congr U _ _ (enqueue_all_caches ids s).1 (enqueue_all_caches ids s).2.1

theorem uncP_insert_pure (U : Finset ProcId) (id : ProcId) (fn : Function)
    (s : St) (hU : id ∈ U) (hcp : alookup id s.procedures = none)
    (hcf : alookup id s.pure_functions = none) :
    uncP U (insPure id fn s) + 1 = uncP U s := by
  unfold uncP
  have hmem : id ∈ U.filter (fun i => alookup i s.procedures = none ∧
      alookup i s.pure_functions = none) :=
    Finset.mem_filter.mpr ⟨hU, hcp, hcf⟩
  have hset : U.filter (fun i => alookup i (insPure id fn s).procedures = none ∧
      alookup i (insPure id fn s).pure_functions = none) =
      (U.filter (fun i => alookup i s.procedures = none ∧
        alookup i s.pure_functions = none)).erase id := by
    ext x
    simp only [Finset.mem_filter, Finset.mem_erase, insPure_procedures, insPure_pure]
    constructor
    · rintro ⟨hxU, hxp, hxf⟩
      by_cases hxi : id = x
      · subst hxi
        rw [alookup_cons_self] at hxf
        cases hxf
      · rw [alookup_cons_ne _ _ hxi] at hxf
        exact ⟨fun he => hxi he.symm, hxU, hxp, hxf⟩
    · rintro ⟨hne, hxU, hxp, hxf⟩
      refine ⟨hxU, hxp, ?_⟩
      rw [alookup_cons_ne _ _ (fun he => hne he.symm)]
      exact hxf
  rw [hset, Finset.card_erase_of_mem hmem]
  have hpos : 0 < (U.filter (fun i => alookup i s.procedures = none ∧
      alookup i s.pure_functions = none)).card :=
    Finset.card_pos.mpr ⟨id, hmem⟩
  omega

theorem uncP_insert_proc (U : Finset ProcId) (env : Env) (id : ProcId)
    (s : St) (hU : id ∈ U) (hcp : alookup id s.procedures = none)
    (hcf : alookup id s.pure_functions = none) :
    uncP U (insProc env id s) + 1 = uncP U s := by
  unfold uncP
  have hmem : id ∈ U.filter (fun i => alookup i s.procedures = none ∧
      alookup i s.pure_functions = none) :=
    Finset.mem_filter.mpr ⟨hU, hcp, hcf⟩
  have hset : U.filter (fun i => alookup i (insProc env id s).procedures = none ∧
      alookup i (insProc env id s).pure_functions = none) =
      (U.filter (fun i => alookup i s.procedures = none ∧
        alookup i s.pure_functions = none)).erase id := by
    ext x
    simp only [Finset.mem_filter, Finset.mem_erase, insProc_procedures, insProc_pure]
    constructor
    · rintro ⟨hxU, hxp, hxf⟩
      by_cases hxi : id = x
      · subst hxi
        rw [alookup_cons_self] at hxp
        cases hxp
      · rw [alookup_cons_ne _ _ hxi] at hxp
        exact ⟨fun he => hxi he.symm, hxU, hxp, hxf⟩
    · rintro ⟨hne, hxU, hxp, hxf⟩
      refine ⟨hxU, ?_, hxf⟩
      rw [alookup_cons_ne _ _ (fun he => hne he.symm)]
      exact hxp
  rw [hset, Finset.card_erase_of_mem hmem]
  have hpos : 0 < (U.filter (fun i => alookup i s.procedures = none ∧
      alookup i s.pure_functions = none)).card :=
    Finset.card_pos.mpr ⟨id, hmem⟩
  omega

/-- Everything a successful drain run puts into the two procedure caches
is reachable from anything covering the queue, and carries the right
attribute flags: procedure-cache members are non-pure and non-trusted,
pure-function-cache members are pure. -/
theorem loop_sound (env : Env) (seeds : List ProcId) :
    ∀ fuel s s', process_queue_loop fuel env s = some s' →
      (∀ i ∈ s.encoding_queue, Reach env seeds i) →
      (∀ i, (alookup i s.procedures).isSome →
        Reach env seeds i ∧ env.has_attr i "pure" = false ∧
          env.has_attr i "trusted" = false) →
      (∀ i, (alookup i s.pure_functions).isSome →
        Reach env seeds i ∧ env.has_attr i "pure" = true) →
      (∀ i, (alookup i s'.procedures).isSome →
        Reach env seeds i ∧ env.has_attr i "pure" = false ∧
          env.has_attr i "trusted" = false) ∧
      (∀ i, (alookup i s'.pure_functions).isSome →
        Reach env seeds i ∧ env.has_attr i "pure" = true) := by
  intro fuel
  induction fuel with
  | zero =>
    intro s s' h hQ hP hF
    cases hq : s.encoding_queue with
    | nil =>
      rw [loop_nil 0 env s hq] at h
      injection h with h'
      subst h'
      exact ⟨hP, hF⟩
    | cons id rest => rw [loop_zero_cons env s id rest hq] at h; cases h
  | succ f ih =>
    intro s s' h hQ hP hF
    cases hq : s.encoding_queue with
    | nil =>
      rw [loop_nil (f + 1) env s hq] at h
      injection h with h'
      subst h'
      exact ⟨hP, hF⟩
    | cons id rest =>
      have hidR : Reach env seeds id :=
        hQ id (by rw [hq]; exact List.mem_cons_self _ _)
      have hrestR : ∀ i ∈ rest, Reach env seeds i := fun i hi =>
        hQ i (by rw [hq]; exact List.mem_cons_of_mem _ hi)
      obtain ⟨s2, h2, hcase⟩ := loop_step f env s id rest s' hq h
      rcases hcase with ⟨hp, hcs, he⟩ | ⟨hp, hc, ht, he⟩ | ⟨hp, hc, ht, he⟩ |
        ⟨hp, ht, he⟩ | ⟨hp, ht, hcs, he⟩ | ⟨hp, ht, hc, he⟩ <;> subst he
      · exact ih _ s' h2 (fun i hi => hrestR i (by rwa [popSt_queue] at hi)) hP hF
      · refine ih _ s' h2 (fun i hi => hrestR i (by rwa [insPure_queue, popSt_queue] at hi)) hP ?_
        intro i hi
        by_cases hii : id = i
        · subst hii
          exact ⟨hidR, hp⟩
        · rw [insPure_pure, popSt_pure, alookup_cons_ne _ _ hii] at hi
          exact hF i hi
      · refine ih _ s' h2 ?_ ?_ ?_
        · intro i hi
          rw [insPure_queue, enqueue_all_queue, popSt_queue] at hi
          cases List.mem_append.mp hi with
          | inl hil => exact Reach.step id i hidR ht (List.mem_reverse.mp hil)
          | inr hir => exact hrestR i hir
        · intro i hi
          rw [insPure_procedures,
            (enqueue_all_caches (env.calls id) (popSt rest s)).1,
            popSt_procedures] at hi
          exact hP i hi
        · intro i hi
          by_cases hii : id = i
          · subst hii
            exact ⟨hidR, hp⟩
          · rw [insPure_pure, alookup_cons_ne _ _ hii,
              (enqueue_all_caches (env.calls id) (popSt rest s)).2.1,
              popSt_pure] at hi
            exact hF i hi
      · exact ih _ s' h2 (fun i hi => hrestR i (by rwa [popSt_queue] at hi)) hP hF
      · exact ih _ s' h2 (fun i hi => hrestR i (by rwa [popSt_queue] at hi)) hP hF
      · refine ih _ s' h2 ?_ ?_ ?_
        · intro i hi
          rw [insProc_queue, enqueue_all_queue, popSt_queue] at hi
          cases List.mem_append.mp hi with
          | inl hil => exact Reach.step id i hidR ht (List.mem_reverse.mp hil)
          | inr hir => exact hrestR i hir
        · intro i hi
          by_cases hii : id = i
          · subst hii
            exact ⟨hidR, hp, ht⟩
          · rw [insProc_procedures, alookup_cons_ne _ _ hii,
              (enqueue_all_caches (env.calls id) (popSt rest s)).1,
              popSt_procedures] at hi
            exact hP i hi
        · intro i hi
          rw [insProc_pure,
            (enqueue_all_caches (env.calls id) (popSt rest s)).2.1,
            popSt_pure] at hi
          exact hF i hi

/-- Over a finite call-closed universe the drain loop terminates: fuel
linear in the number of unencoded universe ids plus the queue length
suffices. -/
theorem loop_terminates (env : Env) (U : Finset ProcId) (K : Nat)
    (hcalls : ∀ i ∈ U, ∀ c ∈ env.calls i, c ∈ U)
    (hK : ∀ i ∈ U, (env.calls i).length ≤ K) :
    ∀ fuel s,
      (∀ i ∈ s.encoding_queue, i ∈ U) →
      (∀ i, (alookup i s.procedures).isSome → env.has_attr i "pure" = false) →
      (∀ i, (alookup i s.pure_functions).isSome → env.has_attr i "pure" = true) →
      (K + 1) * uncP U s + s.encoding_queue.length ≤ fuel →
      (process_queue_loop fuel env s).isSome := by
  intro fuel
  induction fuel with
  | zero =>
    intro s _ _ _ hb
    have hq : s.encoding_queue = [] :=
      List.length_eq_zero.mp (by omega)
    rw [loop_nil 0 env s hq]
    rfl
  | succ f ih =>
    intro s hqU hinvP hinvF hb
    cases hq : s.encoding_queue with
    | nil =>
      rw [loop_nil (f + 1) env s hq]
      rfl
    | cons id rest =>
      have hidU : id ∈ U := hqU id (by rw [hq]; exact List.mem_cons_self _ _)
      have hrestU : ∀ i ∈ rest, i ∈ U := fun i hi =>
        hqU i (by rw [hq]; exact List.mem_cons_of_mem _ hi)
      have hlen : s.encoding_queue.length = rest.length + 1 := by
        rw [hq]
        rfl
      rw [loop_succ_cons f env s id rest hq]
      by_cases hp : env.has_attr id "pure" = true
      · rw [if_pos hp]
        cases hc : alookup id s.pure_functions with
        | some f0 =>
          rw [epfd_cached env id (popSt rest s) f0 hp
            (show alookup id (popSt rest s).pure_functions = some f0 from hc)]
          dsimp only
          apply ih (popSt rest s)
          · intro i hi
            rw [popSt_queue] at hi
            exact hrestU i hi
          · exact hinvP
          · exact hinvF
          · rw [uncP_popSt, popSt_queue]
            omega
        | none =>
          have hcp : alookup id s.procedures = none := by
            cases hx : alookup id s.procedures with
            | none => rfl
            | some m =>
              have hflag := hinvP id (by rw [hx]; rfl)
              rw [hp] at hflag
              cases hflag
          have hmem : id ∈ U.filter (fun i => alookup i s.procedures = none ∧
              alookup i s.pure_functions = none) :=
            Finset.mem_filter.mpr ⟨hidU, hcp, hc⟩
          have hposU : 1 ≤ uncP U s := Finset.card_pos.mpr ⟨id, hmem⟩
          by_cases ht : env.has_attr id "trusted" = true
          · rw [epfd_new_trusted env id (popSt rest s) hp hc ht]
            dsimp only
            apply ih (insPure id (env.mk_bodyless_fun id) (popSt rest s))
            · intro i hi
              rw [insPure_queue, popSt_queue] at hi
              exact hrestU i hi
            · exact hinvP
            · intro i hi
              by_cases hii : id = i
              · subst hii
                exact hp
              · rw [show (insPure id (env.mk_bodyless_fun id) (popSt rest s)).pure_functions = (id, env.mk_bodyless_fun id) :: s.pure_functions from rfl, alookup_cons_ne _ _ hii] at hi
                exact hinvF i hi
            · have h1 := uncP_insert_pure U id (env.mk_bodyless_fun id)
                (popSt rest s) hidU hcp hc
              rw [uncP_popSt] at h1
              have hB : (K + 1) * uncP U (insPure id (env.mk_bodyless_fun id) (popSt rest s)) + (K + 1) = (K + 1) * uncP U s := by
                rw [← h1]
                ring
              rw [insPure_queue, popSt_queue]
              omega
          · have ht' : env.has_attr id "trusted" = false := by
              cases hx : env.has_attr id "trusted"
              · rfl
              · exact absurd hx ht
            rw [epfd_new env id (popSt rest s) hp hc ht']
            dsimp only
            apply ih (insPure id (env.mk_fun id)
              (enqueue_all (env.calls id) (popSt rest s)))
            · intro i hi
              rw [insPure_queue, enqueue_all_queue, popSt_queue] at hi
              cases List.mem_append.mp hi with
              | inl hil => exact hcalls id hidU i (List.mem_reverse.mp hil)
              | inr hir => exact hrestU i hir
            · intro i hi
              rw [insPure_procedures,
                (enqueue_all_caches (env.calls id) (popSt rest s)).1,
                popSt_procedures] at hi
              exact hinvP i hi
            · intro i hi
              by_cases hii : id = i
              · subst hii
                exact hp
              · rw [show (insPure id (env.mk_fun id) (enqueue_all (env.calls id) (popSt rest s))).pure_functions = (id, env.mk_fun id) :: (enqueue_all (env.calls id) (popSt rest s)).pure_functions from rfl, alookup_cons_ne _ _ hii,
                  (enqueue_all_caches (env.calls id) (popSt rest s)).2.1,
                  popSt_pure] at hi
                exact hinvF i hi
            · have h1 := uncP_insert_pure U id (env.mk_fun id)
                (enqueue_all (env.calls id) (popSt rest s)) hidU
                (by rw [(enqueue_all_caches (env.calls id) (popSt rest s)).1, popSt_procedures]; exact hcp)
                (by rw [(enqueue_all_caches (env.calls id) (popSt rest s)).2.1, popSt_pure]; exact hc)
              rw [uncP_enqueue, uncP_popSt] at h1
              have hB : (K + 1) * uncP U (insPure id (env.mk_fun id) (enqueue_all (env.calls id) (popSt rest s))) + (K + 1) = (K + 1) * uncP U s := by
                rw [← h1]
                ring
              rw [insPure_queue, enqueue_all_queue, popSt_queue,
                List.length_append, List.length_reverse]
              have hKid := hK id hidU
              omega
      · have hp' : env.has_attr id "pure" = false := by
          cases hx : env.has_attr id "pure"
          · rfl
          · exact absurd hx hp
        rw [if_neg hp]
        by_cases ht : env.has_attr id "trusted" = true
        · rw [if_pos ht]
          apply ih (popSt rest s)
          · intro i hi
            rw [popSt_queue] at hi
            exact hrestU i hi
          · exact hinvP
          · exact hinvF
          · rw [uncP_popSt, popSt_queue]
            omega
        · have ht' : env.has_attr id "trusted" = false := by
            cases hx : env.has_attr id "trusted"
            · rfl
            · exact absurd hx ht
          rw [if_neg ht]
          cases hc : alookup id s.procedures with
          | some m0 =>
            rw [eproc_cached env id (popSt rest s) m0 hp' ht'
              (show alookup id (popSt rest s).procedures = some m0 from hc)]
            dsimp only
            apply ih (popSt rest s)
            · intro i hi
              rw [popSt_queue] at hi
              exact hrestU i hi
            · exact hinvP
            · exact hinvF
            · rw [uncP_popSt, popSt_queue]
              omega
          | none =>
            have hcf : alookup id s.pure_functions = none := by
              cases hx : alookup id s.pure_functions with
              | none => rfl
              | some fn =>
                have hflag := hinvF id (by rw [hx]; rfl)
                rw [hp'] at hflag
                cases hflag
            have hmem : id ∈ U.filter (fun i => alookup i s.procedures = none ∧
                alookup i s.pure_functions = none) :=
              Finset.mem_filter.mpr ⟨hidU, hc, hcf⟩
            have hposU : 1 ≤ uncP U s := Finset.card_pos.mpr ⟨id, hmem⟩
            rw [eproc_new env id (popSt rest s) hp' ht'
              (show alookup id (popSt rest s).procedures = none from hc)]
            dsimp only
            apply ih (insProc env id (enqueue_all (env.calls id) (popSt rest s)))
            · intro i hi
              rw [insProc_queue, enqueue_all_queue, popSt_queue] at hi
              cases List.mem_append.mp hi with
              | inl hil => exact hcalls id hidU i (List.mem_reverse.mp hil)
              | inr hir => exact hrestU i hir
            · intro i hi
              by_cases hii : id = i
              · subst hii
                exact hp'
              · rw [show (insProc env id (enqueue_all (env.calls id) (popSt rest s))).procedures = (id, env.mk_method id) :: (enqueue_all (env.calls id) (popSt rest s)).procedures from rfl, alookup_cons_ne _ _ hii,
                  (enqueue_all_caches (env.calls id) (popSt rest s)).1,
                  popSt_procedures] at hi
                exact hinvP i hi
            · intro i hi
              rw [insProc_pure,
                (enqueue_all_caches (env.calls id) (popSt rest s)).2.1,
                popSt_pure] at hi
              exact hinvF i hi
            · have h1 := uncP_insert_proc U env id
                (enqueue_all (env.calls id) (popSt rest s)) hidU
                (by rw [(enqueue_all_caches (env.calls id) (popSt rest s)).1, popSt_procedures]; exact hc)
                (by rw [(enqueue_all_caches (env.calls id) (popSt rest s)).2.1, popSt_pure]; exact hcf)
              rw [uncP_enqueue, uncP_popSt] at h1
              have hB : (K + 1) * uncP U (insProc env id (enqueue_all (env.calls id) (popSt rest s))) + (K + 1) = (K + 1) * uncP U s := by
                rw [← h1]
                ring
              rw [insProc_queue, enqueue_all_queue, popSt_queue,
                List.length_append, List.length_reverse]
              have hKid := hK id hidU
              omega

/-- C1: for a finite call graph (a finite universe `U` closed under
callees, with out-degree at most `K`) seeded via `queue_encoding`,
`process_encoding_queue` first builds the closure instantiation index,
then terminates with linear fuel and an empty encoding queue; the final
caches — and hence the extracted program, whose method list is exactly
the procedure cache and whose function list is exactly the pure-function
cache (the builtin caches stay empty) — contain exactly the reachable
non-pure non-trusted procedures as methods and the reachable pure
procedures as functions: pure ids get their pure-function definition,
trusted non-pure ids get nothing, all others get their procedure
definition. -/
theorem c1_queue_drains_to_reachable_program (env : Env) (seeds : List ProcId)
    (U : Finset ProcId) (K : Nat)
    (hseeds : ∀ i ∈ seeds, i ∈ U)
    (hcalls : ∀ i ∈ U, ∀ c ∈ env.calls i, c ∈ U)
    (hK : ∀ i ∈ U, (env.calls i).length ≤ K) :
    ∃ s', process_encoding_queue ((K + 1) * U.card + seeds.length) env
        (enqueue_all seeds initSt) = some s' ∧
      s'.closure_instantiations = env.closure_index ∧
      s'.encoding_queue = [] ∧
      get_used_viper_methods s' = s'.procedures.map (fun p => ViperMethod.user p.2) ∧
      get_used_viper_functions s' = s'.pure_functions.map (fun p => p.2) ∧
      (∀ id, (alookup id s'.procedures).isSome ↔
        (Reach env seeds id ∧ env.has_attr id "pure" = false ∧
          env.has_attr id "trusted" = false)) ∧
      (∀ id, (alookup id s'.pure_functions).isSome ↔
        (Reach env seeds id ∧ env.has_attr id "pure" = true)) := by
  have hq0 : (collect_closure_instantiations env (enqueue_all seeds initSt)).encoding_queue = seeds.reverse := by
    show (enqueue_all seeds initSt).encoding_queue = seeds.reverse
    rw [enqueue_all_queue]
    show seeds.reverse ++ [] = seeds.reverse
    exact List.append_nil _
  have hsp : (collect_closure_instantiations env (enqueue_all seeds initSt)).procedures = [] := by
    show (enqueue_all seeds initSt).procedures = []
    rw [(enqueue_all_caches seeds initSt).1]
    rfl
  have hsf : (collect_closure_instantiations env (enqueue_all seeds initSt)).pure_functions = [] := by
    show (enqueue_all seeds initSt).pure_functions = []
    rw [(enqueue_all_caches seeds initSt).2.1]
    rfl
  have hsome : (process_queue_loop ((K + 1) * U.card + seeds.length) env
      (collect_closure_instantiations env (enqueue_all seeds initSt))).isSome := by
    apply loop_terminates env U K hcalls hK
    · intro i hi
      rw [hq0] at hi
      exact hseeds i (List.mem_reverse.mp hi)
    · intro i hi
      rw [hsp] at hi
      cases hi
    · intro i hi
      rw [hsf] at hi
      cases hi
    · have hcard : uncP U (collect_closure_instantiations env (enqueue_all seeds initSt)) ≤ U.card :=
        Finset.card_filter_le _ _
      have hmul : (K + 1) * uncP U (collect_closure_instantiations env (enqueue_all seeds initSt)) ≤ (K + 1) * U.card :=
        Nat.mul_le_mul_left _ hcard
      rw [hq0, List.length_reverse]
      omega
  obtain ⟨s', hrun⟩ := Option.isSome_iff_exists.mp hsome
  refine ⟨s', hrun, ?_, loop_final_queue env _ _ _ hrun, ?_, ?_, ?_, ?_⟩
  · exact (loop_mono env _ _ _ hrun).2.2
  · have hbm := (process_queue_loop_builtin _ env _ _ hrun).1
    have hbm0 : (collect_closure_instantiations env (enqueue_all seeds initSt)).builtin_methods = [] := by
      show (enqueue_all seeds initSt).builtin_methods = []
      rw [(enqueue_all_builtin seeds initSt).1]
      rfl
    unfold get_used_viper_methods
    rw [hbm, hbm0]
    rfl
  · have hbf := (process_queue_loop_builtin _ env _ _ hrun).2
    have hbf0 : (collect_closure_instantiations env (enqueue_all seeds initSt)).builtin_functions = [] := by
      show (enqueue_all seeds initSt).builtin_functions = []
      rw [(enqueue_all_builtin seeds initSt).2]
      rfl
    unfold get_used_viper_functions
    rw [hbf, hbf0]
    rfl
  all_goals {
    have hsound := loop_sound env seeds _ _ s' hrun
      (fun i hi => Reach.seed i (by rw [hq0] at hi; exact List.mem_reverse.mp hi))
      (fun i hi => by rw [hsp] at hi; cases hi)
      (fun i hi => by rw [hsf] at hi; cases hi)
    have hsettled : ∀ id, Reach env seeds id → settled env s' id := by
      intro id hr
      induction hr with
      | seed i hi =>
        apply loop_settle env _ _ s' hrun i
        rw [hq0]
        exact List.mem_reverse.mpr hi
      | step p c hp htp hcall ihp =>
        have hLC := loop_calls env _ _ s' hrun
        cases hpp : env.has_attr p "pure" with
        | true =>
          have hps : (alookup p s'.pure_functions).isSome := ihp.1 hpp
          exact hLC.1 p (by rw [hsf]; rfl) hps htp c hcall
        | false =>
          have hps : (alookup p s'.procedures).isSome := ihp.2 hpp htp
          exact hLC.2 p (by rw [hsp]; rfl) hps c hcall
    first
      | exact fun id => ⟨fun hi => hsound.1 id hi,
          fun hi => (hsettled id hi.1).2 hi.2.1 hi.2.2⟩
      | exact fun id => ⟨fun hi => hsound.2 id hi,
          fun hi => (hsettled id hi.1).1 hi.2⟩
  }

/-- Witness for C1 at the concrete environment: seed procedure `0` calls
the pure function `1` and the trusted procedure `2`; id `3` is pure but
unreachable.  The universe is `{0, 1, 2, 3}` with out-degree bound `2`. -/
theorem c1_witness :
    ∃ s', process_encoding_queue ((2 + 1) * ({0, 1, 2, 3} : Finset ProcId).card + [0].length) envC
        (enqueue_all [0] initSt) = some s' ∧
      s'.closure_instantiations = envC.closure_index ∧
      s'.encoding_queue = [] ∧
      get_used_viper_methods s' = s'.procedures.map (fun p => ViperMethod.user p.2) ∧
      get_used_viper_functions s' = s'.pure_functions.map (fun p => p.2) ∧
      (∀ id, (alookup id s'.procedures).isSome ↔
        (Reach envC [0] id ∧ envC.has_attr id "pure" = false ∧
          envC.has_attr id "trusted" = false)) ∧
      (∀ id, (alookup id s'.pure_functions).isSome ↔
        (Reach envC [0] id ∧ envC.has_attr id "pure" = true)) :=
  c1_queue_drains_to_reachable_program envC [0] {0, 1, 2, 3} 2
    (by decide) (by decide) (by decide)

end Enc
